import Mathlib

/-!
Verification development for a multi-objective QoS path-search engine
(four metaheuristic solvers — genetic, particle swarm, simulated annealing,
tabular Q-learning — over a weighted network graph, plus a dispatcher).

The Python source is shallowly embedded:

* Python floats are modelled as exact fractions (`Fl`, an unnormalised
  `Int` numerator/denominator pair, so that all arithmetic is executable
  and kernel-reducible).  All comparisons in the embedded code are the
  cross-multiplication order, which agrees with the rational order as
  long as denominators are positive (`Fl.Pos`); every value built by the
  embedded programs from positive-denominator inputs keeps a positive
  denominator.
* `math.log` has no executable counterpart, so every cost model takes an
  explicit parameter `negLog : Fl → Fl` standing for `fun r => -ln r`;
  `math.exp` likewise becomes a parameter `expfn : Fl → Fl` of the
  simulated-annealing embedding.  Theorems either hold for all such
  parameters or state the facts about `exp`/`ln` they rely on
  (e.g. `expfn 0 = 1`) as hypotheses.
* The shared global pseudo-random generator (`random.random`,
  `random.randint`, `random.choice`, `random.sample`, `random.shuffle`,
  `np.random.rand`, `np.random.uniform`) is modelled by a single explicit
  decision stream `Rng`: a function from draw index to a natural number,
  consumed left to right.  `random.random()` draws are mapped into
  [0, 1) with a granularity of 1/1000.
* `float('inf')` results (infeasible paths) are modelled with `Option Fl`
  (`none` = infinite cost).
* Python exceptions are modelled with `Except`; `None` returns with
  `Option`.
* `nx.shortest_path` (NetworkX) is modelled by a deterministic Dijkstra
  (`dijkstraLoop`); the unweighted variant is the same search with unit
  edge weights.  Concrete executions below only rely on it in situations
  where the shortest path is unique, so the NetworkX tie-breaking rules
  do not matter.
* Mutation of `self.G` / solver-local state is modelled by explicit state
  passing; the dispatcher returns the updated graph alongside its result.
-/

set_option maxRecDepth 8000

/-! ## Exact fractions standing for Python floats -/

structure Fl where
  num : Int
  den : Int
  deriving DecidableEq

def Fl.add (a b : Fl) : Fl := ⟨a.num * b.den + b.num * a.den, a.den * b.den⟩

def Fl.neg (a : Fl) : Fl := ⟨-a.num, a.den⟩

def Fl.sub (a b : Fl) : Fl := a.add b.neg

def Fl.mul (a b : Fl) : Fl := ⟨a.num * b.num, a.den * b.den⟩

/-- Reciprocal; the denominator is kept positive.  Division by zero is
junk-valued (the embedded code only divides by guarded values). -/
def Fl.inv (a : Fl) : Fl :=
  if 0 < a.num then ⟨a.den, a.num⟩
  else if a.num < 0 then ⟨-a.den, -a.num⟩
  else ⟨0, 1⟩

def Fl.div (a b : Fl) : Fl := a.mul b.inv

instance : Add Fl := ⟨Fl.add⟩
instance : Sub Fl := ⟨Fl.sub⟩
instance : Neg Fl := ⟨Fl.neg⟩
instance : Mul Fl := ⟨Fl.mul⟩
instance : Div Fl := ⟨Fl.div⟩
instance (n : Nat) : OfNat Fl n := ⟨⟨(n : Int), 1⟩⟩
instance : OfScientific Fl :=
  ⟨fun m b e => if b then ⟨(m : Int), (10 : Int) ^ e⟩ else ⟨(m : Int) * (10 : Int) ^ e, 1⟩⟩

/-- Boolean strict order by cross multiplication (sound for positive
denominators). -/
def Fl.blt (a b : Fl) : Bool := a.num * b.den < b.num * a.den

def Fl.ble (a b : Fl) : Bool := a.num * b.den ≤ b.num * a.den

/-- Boolean value equality (Python `==` on floats). -/
def Fl.beq (a b : Fl) : Bool := a.num * b.den == b.num * a.den

instance : LT Fl := ⟨fun a b => a.num * b.den < b.num * a.den⟩
instance : LE Fl := ⟨fun a b => a.num * b.den ≤ b.num * a.den⟩

instance (a b : Fl) : Decidable (a < b) := Int.decLt _ _
instance (a b : Fl) : Decidable (a ≤ b) := Int.decLe _ _

/-- Value equality as a proposition. -/
def Fl.Equiv (a b : Fl) : Prop := a.num * b.den = b.num * a.den

instance (a b : Fl) : Decidable (a.Equiv b) := Int.decEq _ _

/-- Well-formedness: positive denominator. -/
def Fl.Pos (a : Fl) : Prop := 0 < a.den

instance (a : Fl) : Decidable a.Pos := Int.decLt _ _

/-- Rational value of a fraction (used in specifications and proofs only;
the embedded programs compute with `Fl` itself). -/
def Fl.val (a : Fl) : ℚ := (a.num : ℚ) / (a.den : ℚ)

def Fl.ofNat (n : Nat) : Fl := ⟨(n : Int), 1⟩

/-- Python `max(a, b)`: returns `b` exactly when `b > a`. -/
def Fl.pymax (a b : Fl) : Fl := bif a.blt b then b else a

/-- Python `min(a, b)`: returns `b` exactly when `b < a`. -/
def Fl.pymin (a b : Fl) : Fl := bif b.blt a then b else a

/-- `np.clip(x, lo, hi)`. -/
def Fl.clip (x lo hi : Fl) : Fl := bif x.blt lo then lo else bif hi.blt x then hi else x

/-! ## The random decision stream

`stream` maps a draw index to a natural number; `idx` is the next index to
consume.  Each Python random primitive consumes one draw per elementary
decision. -/

structure Rng where
  stream : Nat → Nat
  idx : Nat

def Rng.next (r : Rng) : Nat × Rng := (r.stream r.idx, ⟨r.stream, r.idx + 1⟩)

/-- `random.random()`: a draw in [0, 1), with granularity 1/1000. -/
def Rng.randFloat (r : Rng) : Fl × Rng :=
  let p := r.next
  (⟨((p.1 % 1000 : Nat) : Int), 1000⟩, p.2)

/-- `random.randint(lo, hi)` (both bounds inclusive, `lo ≤ hi` at all call
sites of the embedded code). -/
def Rng.randIntAB (lo hi : Nat) (r : Rng) : Nat × Rng :=
  let p := r.next
  (lo + p.1 % (hi + 1 - lo), p.2)

/-- `random.choice(l)` (call sites guarantee `l` is nonempty). -/
def Rng.choice {α : Type} (l : List α) (dflt : α) (r : Rng) : α × Rng :=
  let p := r.next
  (l.getD (p.1 % l.length) dflt, p.2)

/-- `np.random.uniform(lo, hi)`: `lo + (hi - lo) * random()`. -/
def Rng.uniform (lo hi : Fl) (r : Rng) : Fl × Rng :=
  let p := r.randFloat
  (lo + (hi - lo) * p.1, p.2)

/-- A list of `n` fresh uniform draws (`np.random.rand(n)` /
`np.random.uniform(lo, hi, n)`). -/
def Rng.uniformVec (lo hi : Fl) : Nat → Rng → List Fl × Rng
  | 0, r => ([], r)
  | n + 1, r =>
    let p := r.uniform lo hi
    let q := Rng.uniformVec lo hi n p.2
    (p.1 :: q.1, q.2)

def listRemoveNth {α : Type} : List α → Nat → List α
  | [], _ => []
  | _ :: xs, 0 => xs
  | x :: xs, n + 1 => x :: listRemoveNth xs n

/-- `random.sample(pool, k)`: `k` distinct positions, drawn one by one from
the remaining pool.  Callers check `k ≤ pool.length`. -/
def Rng.sampleK {α : Type} (dflt : α) : Nat → List α → Rng → List α × Rng
  | 0, _, r => ([], r)
  | k + 1, pool, r =>
    let p := r.next
    let i := p.1 % pool.length
    let x := pool.getD i dflt
    let q := Rng.sampleK dflt k (listRemoveNth pool i) p.2
    (x :: q.1, q.2)

def listSwapAt {α : Type} [Inhabited α] (l : List α) (i j : Nat) : List α :=
  let xi := l.getD i default
  let xj := l.getD j default
  (l.set i xj).set j xi

/-- Fisher–Yates shuffle (`random.shuffle`): for `i = len-1, …, 1`,
swap position `i` with a drawn position `j ≤ i`. -/
def Rng.shuffleAux {α : Type} [Inhabited α] : Nat → List α → Rng → List α × Rng
  | 0, l, r => (l, r)
  | i + 1, l, r =>
    match i with
    | 0 => (l, r)
    | _ =>
      let p := r.next
      let j := p.1 % (i + 1)
      Rng.shuffleAux i (listSwapAt l i j) p.2

def Rng.shuffle {α : Type} [Inhabited α] (l : List α) (r : Rng) : List α × Rng :=
  Rng.shuffleAux l.length l r

/-! ## Generic list helpers mirroring Python built-ins -/

/-- Python `min(l, key=f)` — first element attaining the minimum key.
Callers guarantee nonemptiness; the default is returned for `[]`. -/
def pyMinBy {α : Type} (f : α → Fl) (dflt : α) (l : List α) : α :=
  match l with
  | [] => dflt
  | x :: xs => (xs.foldl (fun acc y => bif (f y).blt (f acc) then y else acc) x)

/-- Python `max(l, key=f)` — first element attaining the maximum key. -/
def pyMaxBy {α : Type} (f : α → Fl) (dflt : α) (l : List α) : α :=
  match l with
  | [] => dflt
  | x :: xs => (xs.foldl (fun acc y => bif (f acc).blt (f y) then y else acc) x)

def insertByKey {α : Type} (f : α → Fl) (x : α) : List α → List α
  | [] => [x]
  | y :: ys => bif (f x).ble (f y) then x :: y :: ys else y :: insertByKey f x ys

/-- Stable insertion sort by key, ascending — Python `sorted(l, key=f)`. -/
def sortByKey {α : Type} (f : α → Fl) : List α → List α
  | [] => []
  | x :: xs => insertByKey f x (sortByKey f xs)

/-! ## Graph model

Node and edge attribute records carry exactly the attributes the
repository's builders (`TopologyManager.create_network`,
`TopologyManager.build_from_csv`, `sa_algorithm.build_graph`) attach.
Attributes that only some builders attach (`dynamic_weight`, `capacity`,
precomputed `reliability_cost` / `resource_cost`) are `Option`-valued, so
the `'key' in data` / `data.get(key, default)` idioms of the source can be
modelled faithfully. -/

structure NodeData where
  proc_delay : Fl
  reliability : Fl
  node_rel_cost : Option Fl := none
  deriving DecidableEq

structure EdgeData where
  bandwidth : Fl
  link_delay : Fl
  reliability : Fl
  dynamic_weight : Option Fl := none
  capacity : Option Fl := none
  edge_rel_cost : Option Fl := none
  edge_res_cost : Option Fl := none
  deriving DecidableEq

/-- Undirected `nx.Graph`: node list and edge list in insertion order. -/
structure Graph where
  nodes : List (Nat × NodeData)
  edges : List (Nat × Nat × EdgeData)
  deriving DecidableEq

def Graph.nodeIds (g : Graph) : List Nat := g.nodes.map (fun p => p.1)

def Graph.getNode (g : Graph) (n : Nat) : Option NodeData :=
  (g.nodes.find? (fun p => p.1 == n)).map (fun p => p.2)

def dfltNode : NodeData := ⟨0, 1, none⟩

/-- `graph.nodes[n]` (call sites only index nodes that exist). -/
def Graph.nodeD (g : Graph) (n : Nat) : NodeData := (g.getNode n).getD dfltNode

/-- `graph.get_edge_data(u, v)` on an undirected graph. -/
def Graph.findEdge (g : Graph) (u v : Nat) : Option EdgeData :=
  (g.edges.find? (fun e => (e.1 == u && e.2.1 == v) || (e.1 == v && e.2.1 == u))).map
    (fun e => e.2.2)

def Graph.hasEdge (g : Graph) (u v : Nat) : Bool := (g.findEdge u v).isSome

/-- `list(G.neighbors(u))` in adjacency (edge-insertion) order. -/
def Graph.neighbors (g : Graph) (u : Nat) : List Nat :=
  g.edges.filterMap (fun e =>
    bif e.1 == u then some e.2.1 else bif e.2.1 == u then some e.1 else none)

/-- Directed `nx.DiGraph`. -/
structure DiGraph where
  nodes : List (Nat × NodeData)
  dedges : List (Nat × Nat × EdgeData)
  deriving DecidableEq

def DiGraph.getNode (dg : DiGraph) (n : Nat) : Option NodeData :=
  (dg.nodes.find? (fun p => p.1 == n)).map (fun p => p.2)

def DiGraph.nodeD (dg : DiGraph) (n : Nat) : NodeData := (dg.getNode n).getD dfltNode

def DiGraph.findEdge (dg : DiGraph) (u v : Nat) : Option EdgeData :=
  (dg.dedges.find? (fun e => e.1 == u && e.2.1 == v)).map (fun e => e.2.2)

def DiGraph.hasEdge (dg : DiGraph) (u v : Nat) : Bool := (dg.findEdge u v).isSome

def DiGraph.succ (dg : DiGraph) (u : Nat) : List Nat :=
  dg.dedges.filterMap (fun e => bif e.1 == u then some e.2.1 else none)

/-- The undirected→directed conversion performed by
`calculate_route_with_sa`: both orientations of every edge, in edge order. -/
def Graph.toDiGraph (g : Graph) : DiGraph :=
  ⟨g.nodes, g.edges.flatMap (fun e => [(e.1, e.2.1, e.2.2), (e.2.1, e.1, e.2.2)])⟩

/-- `temp_G.remove_edge(u, v)` on a directed graph. -/
def DiGraph.removeEdge (dg : DiGraph) (u v : Nat) : DiGraph :=
  ⟨dg.nodes, dg.dedges.filter (fun e => !(e.1 == u && e.2.1 == v))⟩

/-- Consecutive pairs of a list. -/
def pairsOf {α : Type} : List α → List (α × α)
  | [] => []
  | [_] => []
  | a :: b :: rest => (a, b) :: pairsOf (b :: rest)

/-- Every consecutive pair of `p` is an edge of the undirected graph. -/
def Graph.pathConnected (g : Graph) (p : List Nat) : Bool :=
  (pairsOf p).all (fun uv => g.hasEdge uv.1 uv.2)

/-- A simple path from `s` to `t`: length ≥ 2 is implied at the use sites
by `s ≠ t`. -/
def SimplePathFromTo (g : Graph) (p : List Nat) (s t : Nat) : Prop :=
  p.head? = some s ∧ p.getLast? = some t ∧ p.Nodup ∧ g.pathConnected p = true

instance (g : Graph) (p : List Nat) (s t : Nat) : Decidable (SimplePathFromTo g p s t) :=
  inferInstanceAs (Decidable (_ ∧ _ ∧ _ ∧ _))

/-! ## Deterministic shortest path (model of `nx.shortest_path`)

A Dijkstra search over an explicit successor/weight function, with lazy
deletion and a first-minimum extraction rule, so it is fully
deterministic.  With unit weights it computes a minimum-hop path, which is
the model used for the unweighted `nx.shortest_path` calls.  Concrete
executions in this file only rely on its result where the shortest path is
unique. -/

def extractMinFr : List (Fl × List Nat) → Option ((Fl × List Nat) × List (Fl × List Nat))
  | [] => none
  | x :: xs =>
    match extractMinFr xs with
    | none => some (x, [])
    | some (m, rest) => bif m.1.blt x.1 then some (m, x :: rest) else some (x, xs)

def dijkstraLoop (succw : Nat → List (Nat × Fl)) (t : Nat) :
    Nat → List (Fl × List Nat) → List Nat → Option (List Nat)
  | 0, _, _ => none
  | _ + 1, [], _ => none
  | fuel + 1, f :: fs, visited =>
    match extractMinFr (f :: fs) with
    | none => none
    | some (entry, rest) =>
      match entry.2 with
      | [] => none
      | cur :: _ =>
        bif visited.contains cur then dijkstraLoop succw t fuel rest visited
        else bif cur == t then some entry.2.reverse
        else
          let visited' := cur :: visited
          let exps := (succw cur).filterMap (fun nw =>
            bif visited'.contains nw.1 then none
            else some (entry.1 + nw.2, nw.1 :: entry.2))
          dijkstraLoop succw t fuel (rest ++ exps) visited'

def dijkstraFrom (succw : Nat → List (Nat × Fl)) (fuel s t : Nat) : Option (List Nat) :=
  dijkstraLoop succw t fuel [(0, [s])] []

/-- Unweighted `nx.shortest_path(dg, s, t)` (minimum hop count). -/
def DiGraph.shortestPathHops (dg : DiGraph) (s t : Nat) : Option (List Nat) :=
  dijkstraFrom (fun u => (dg.succ u).map (fun n => (n, 1)))
    (dg.nodes.length + dg.dedges.length + 2) s t

/-- Unweighted `nx.shortest_path(g, s, t)` on an undirected graph. -/
def Graph.shortestPathHops (g : Graph) (s t : Nat) : Option (List Nat) :=
  dijkstraFrom (fun u => (g.neighbors u).map (fun n => (n, 1)))
    (g.nodes.length + 2 * g.edges.length + 2) s t

/-- `nx.has_path(g, s, t)`. -/
def Graph.hasPath (g : Graph) (s t : Nat) : Bool := (g.shortestPathHops s t).isSome

/-! ## `Algorithms/metrics.py` -/

structure PathAttrs where
  total_delay : Fl
  reliability_cost : Fl
  resource_cost : Fl
  deriving DecidableEq

/-- Interior of a path: `path[1:-1]`. -/
def interiorOf (p : List Nat) : List Nat := (p.drop 1).dropLast

/-- `calculate_path_attributes(graph, path)`.  Edges are walked over all
consecutive pairs and silently skipped when absent (`if edge_data:`);
processing delay is summed over interior nodes; `-log` reliability is
summed over edges and over all path nodes, with the 1e-6 clamp of the
source. -/
def cpa_edge_step (negLog : Fl → Fl) (g : Graph) (acc : PathAttrs) (uv : Nat × Nat) :
    PathAttrs :=
  match g.findEdge uv.1 uv.2 with
  | none => acc
  | some d =>
    let rl := bif d.reliability.ble ⟨1, 1000000⟩ then (⟨1, 1000000⟩ : Fl) else d.reliability
    let bw := bif d.bandwidth.ble 0 then (1 : Fl) else d.bandwidth
    ⟨acc.total_delay + d.link_delay, acc.reliability_cost + negLog rl,
      acc.resource_cost + 1000 / bw⟩

def cpa_delay_step (g : Graph) (acc : Fl) (n : Nat) : Fl := acc + (g.nodeD n).proc_delay

def cpa_rel_step (negLog : Fl → Fl) (g : Graph) (acc : Fl) (n : Nat) : Fl :=
  let rn := bif (g.nodeD n).reliability.ble ⟨1, 1000000⟩ then (⟨1, 1000000⟩ : Fl)
            else (g.nodeD n).reliability
  acc + negLog rn

def calculate_path_attributes (negLog : Fl → Fl) (g : Graph) (path : List Nat) : PathAttrs :=
  let eacc := (pairsOf path).foldl (cpa_edge_step negLog g) ⟨0, 0, 0⟩
  let dacc := (interiorOf path).foldl (cpa_delay_step g) eacc.total_delay
  let racc := path.foldl (cpa_rel_step negLog g) eacc.reliability_cost
  ⟨dacc, racc, eacc.resource_cost⟩

structure GaWeights where
  w_delay : Fl
  w_reliability : Fl
  w_resource : Fl
  deriving DecidableEq

/-- `calculate_weighted_cost(path_attributes, weights)`. -/
def calculate_weighted_cost (a : PathAttrs) (w : GaWeights) : Fl :=
  w.w_delay * a.total_delay + w.w_reliability * a.reliability_cost +
    w.w_resource * a.resource_cost

/-! ## `Algorithms/ga.py` — genetic solver -/

inductive GaError where
  | noPopulation
  | sampleTooLarge
  deriving DecidableEq

/-- `GenetikAlgorithm.fitness` (evaluated on the solver's current,
bandwidth-filtered graph). -/
def ga_fitness (negLog : Fl → Fl) (g : Graph) (w : GaWeights) (path : List Nat) : Fl :=
  calculate_weighted_cost (calculate_path_attributes negLog g path) w

/-- The bandwidth filter of `baslangic_popilasyonu`: drop every edge with
`bandwidth < bw`. -/
def ga_filter (g : Graph) (bw : Fl) : Graph :=
  ⟨g.nodes, g.edges.filter (fun e => !(e.2.2.bandwidth.blt bw))⟩

/-- The DFS stack loop of `rastgele_yol`.  Stack entries hold the current
node and the path so far in reverse (head = current).  `fuel` only bounds
the search (the Python loop terminates because extensions are cycle-free);
call sites pass a generous budget. -/
def rastgele_yol_loop (g : Graph) (d maxLen : Nat) :
    Nat → List (Nat × List Nat) → Rng → Option (List Nat) × Rng
  | 0, _, r => (none, r)
  | _ + 1, [], r => (none, r)
  | fuel + 1, (node, path) :: rest, r =>
    bif maxLen < path.length then rastgele_yol_loop g d maxLen fuel rest r
    else bif node == d then (some path.reverse, r)
    else
      let p := r.shuffle (g.neighbors node)
      let exts := (p.1.filter (fun n => !(path.contains n))).map (fun n => (n, n :: path))
      rastgele_yol_loop g d maxLen fuel (exts.reverse ++ rest) p.2

/-- `rastgele_yol(G, s, d, max_len=30)`. -/
def rastgele_yol (g : Graph) (s d : Nat) (r : Rng) : Option (List Nat) × Rng :=
  rastgele_yol_loop g d 30 10000 [(s, [s])] r

/-- The population-collection loop of `baslangic_popilasyonu`; the fuel is
the attempt budget `max_attempts = N * 20`. -/
def baslangic_loop (g : Graph) (s d N : Nat) :
    Nat → List (List Nat) → Rng → List (List Nat) × Rng
  | 0, pop, r => (pop, r)
  | att + 1, pop, r =>
    bif N ≤ pop.length then (pop, r)
    else
      let p := rastgele_yol g s d r
      match p.1 with
      | some path =>
        bif pop.contains path then baslangic_loop g s d N att pop p.2
        else baslangic_loop g s d N att (pop ++ [path]) p.2
      | none => baslangic_loop g s d N att pop p.2

/-- `baslangic_popilasyonu`: filter the graph by bandwidth, then collect up
to `N` distinct random walks; an empty population raises. -/
def baslangic_popilasyonu (g : Graph) (s d : Nat) (bw : Fl) (N : Nat) (r : Rng) :
    Except GaError (Graph × List (List Nat) × Rng) :=
  let gF := ga_filter g bw
  let p := baslangic_loop gF s d N (N * 20) [] r
  bif p.1.isEmpty then .error .noPopulation else .ok (gF, p.1, p.2)

/-- `mutasyon(path)`: replace the node at a random interior index by a
freshly searched random sub-path between its neighbours. -/
def mutasyon (g : Graph) (path : List Nat) (r : Rng) : List Nat × Rng :=
  bif path.length < 3 then (path, r)
  else
    let p := r.randIntAB 1 (path.length - 2)
    let idx := p.1
    let sol := path.getD (idx - 1) 0
    let sag := path.getD (idx + 1) 0
    let q := rastgele_yol g sol sag p.2
    match q.1 with
    | none => (path, q.2)
    | some sub =>
      (path.take idx ++ interiorOf sub ++ path.drop (idx + 1), q.2)

/-- `caprazlama(parent1, parent2)`.  The Python source takes
`list(set(p1[1:-1]) & set(p2[1:-1]))`, whose order is unspecified; it is
modelled here as the first-occurrence order of `parent1`'s interior. -/
def caprazlama (negLog : Fl → Fl) (g : Graph) (w : GaWeights) (p1 p2 : List Nat) (r : Rng) :
    List Nat × Rng :=
  let ortak := ((interiorOf p1).eraseDups).filter (fun n => (interiorOf p2).contains n)
  bif ortak.isEmpty then
    (bif (ga_fitness negLog g w p2).blt (ga_fitness negLog g w p1) then p2 else p1, r)
  else
    let c := r.choice ortak 0
    let i1 := p1.findIdx (fun n => n == c.1)
    let i2 := p2.findIdx (fun n => n == c.1)
    (p1.take (i1 + 1) ++ p2.drop (i2 + 1), c.2)

/-- `turnuva_secimi(k=3)`: `random.sample` raises when the population has
fewer than 3 individuals. -/
def turnuva_secimi (negLog : Fl → Fl) (g : Graph) (w : GaWeights) (pop : List (List Nat))
    (r : Rng) : Except GaError (List Nat × Rng) :=
  bif pop.length < 3 then .error .sampleTooLarge
  else
    let p := Rng.sampleK [] 3 pop r
    .ok (pyMinBy (ga_fitness negLog g w) [] p.1, p.2)

/-- The child-production loop of `genetik_algoritması` (crossover
probability `pc = 0.8`, mutation probability `pm = 0.08`, population size
`N`); each pass appends exactly one child, so `N` is enough fuel. -/
def genetik_children (negLog : Fl → Fl) (g : Graph) (w : GaWeights) (pop : List (List Nat))
    (N : Nat) : Nat → List (List Nat) → Rng → Except GaError (List (List Nat) × Rng)
  | 0, newpop, r => .ok (newpop, r)
  | fuel + 1, newpop, r =>
    bif N ≤ newpop.length then .ok (newpop, r)
    else
      match turnuva_secimi negLog g w pop r with
      | .error e => .error e
      | .ok (p1, r1) =>
        match turnuva_secimi negLog g w pop r1 with
        | .error e => .error e
        | .ok (p2, r2) =>
          let pd := r2.randFloat
          let cp :=
            bif pd.1.blt (0.8 : Fl) then caprazlama negLog g w p1 p2 pd.2
            else (bif (ga_fitness negLog g w p2).blt (ga_fitness negLog g w p1) then p2 else p1,
              pd.2)
          let md := cp.2.randFloat
          let mp := bif md.1.blt (0.08 : Fl) then mutasyon g cp.1 md.2 else (cp.1, md.2)
          genetik_children negLog g w pop N fuel (newpop ++ [mp.1]) mp.2

/-- `genetik_algoritması`: sort by fitness, keep the top `elite = 2`
individuals, then fill the next generation up to `N = 50` children. -/
def genetik_algoritmasi (negLog : Fl → Fl) (g : Graph) (w : GaWeights)
    (pop : List (List Nat)) (r : Rng) : Except GaError (List (List Nat) × Rng) :=
  let elites := sortByKey (ga_fitness negLog g w) pop
  genetik_children negLog g w pop 50 50 (elites.take 2) r

/-- The generation loop of `genetik_calistir` (`max_gen` iterations),
tracking the best individual seen so far. -/
def ga_generation_loop (negLog : Fl → Fl) (g : Graph) (w : GaWeights) :
    Nat → List (List Nat) → List Nat → Rng → Except GaError (List Nat × Rng)
  | 0, _, best, r => .ok (best, r)
  | gen + 1, pop, best, r =>
    match genetik_algoritmasi negLog g w pop r with
    | .error e => .error e
    | .ok (pop', r') =>
      let curr := pyMinBy (ga_fitness negLog g w) [] pop'
      let best' :=
        bif (ga_fitness negLog g w curr).blt (ga_fitness negLog g w best) then curr else best
      ga_generation_loop negLog g w gen pop' best' r'

/-- `genetik_calistir(G, s, d, bw, weights)` with the constructor defaults
`N = 50`, `max_gen = 200`, `elite = 2`.  Returns the best path together
with the solver's final (bandwidth-filtered) graph, which
`get_path_metrics` evaluates against. -/
def genetik_calistir (negLog : Fl → Fl) (g : Graph) (s d : Nat) (bw : Fl) (w : GaWeights)
    (r : Rng) : Except GaError (List Nat × Graph × Rng) :=
  match baslangic_popilasyonu g s d bw 50 r with
  | .error e => .error e
  | .ok (gF, pop, r1) =>
    let best0 := pyMinBy (ga_fitness negLog gF w) [] pop
    match ga_generation_loop negLog gF w 200 pop best0 r1 with
    | .error e => .error e
    | .ok (best, r2) => .ok (best, gF, r2)

structure GaMetrics where
  path : List Nat
  total_delay : Fl
  total_reliability : Fl
  resource_cost : Fl
  deriving DecidableEq

/-- `get_path_metrics(path, demand_bw)` on the solver's final graph.
`none` covers both the `valid: False` dictionaries and the `KeyError`
raised on a missing edge (both surface as a null result at the
dispatcher). -/
def get_path_metrics (negLog : Fl → Fl) (gF : Graph) (path : List Nat) (demand_bw : Fl) :
    Option GaMetrics :=
  bif path.length < 2 then none
  else bif !(gF.pathConnected path) then none
  else
    let attrs := calculate_path_attributes negLog gF path
    let edgeRel := (pairsOf path).foldl (fun (acc : Fl) uv =>
      acc * ((gF.findEdge uv.1 uv.2).map (fun d => d.reliability)).getD 1) 1
    let totalRel := path.foldl (fun (acc : Fl) n => acc * (gF.nodeD n).reliability) edgeRel
    let minBw := (pairsOf path).foldl (fun (acc : Option Fl) uv =>
      match (gF.findEdge uv.1 uv.2).map (fun d => d.bandwidth) with
      | none => acc
      | some b => match acc with
        | none => some b
        | some m => some (bif b.blt m then b else m)) none
    match minBw with
    | none => none
    | some m =>
      bif m.blt demand_bw then none
      else some ⟨path, attrs.total_delay, totalRel, attrs.resource_cost⟩

/-! ## `Algorithms/pso.py` — particle-swarm solver -/

structure Particle where
  position : List Fl
  velocity : List Fl
  pbest_pos : List Fl
  pbest_score : Option Fl
  deriving DecidableEq

/-- `Particle.__init__(size)`: positions `np.random.rand(size)`, velocities
uniform in [-0.1, 0.1], personal best score `inf` (`none`). -/
def Particle.init (size : Nat) (r : Rng) : Particle × Rng :=
  let p := r.uniformVec 0 1 size
  let v := p.2.uniformVec (-0.1 : Fl) (0.1 : Fl) size
  (⟨p.1, v.1, p.1, none⟩, v.2)

def zipWith4 {α : Type} (f : α → α → α → α → α) :
    List α → List α → List α → List α → List α
  | a :: as', b :: bs, c :: cs, d :: ds => f a b c d :: zipWith4 f as' bs cs ds
  | _, _, _, _ => []

/-- `Particle.update(gbest_pos, w=0.7, c1=1.5, c2=2.0)`:
`v ← w·v + c1·r1·(pbest − x) + c2·r2·(gbest − x)`;
`x ← clip(x + v, 0.001, 1.0)`. -/
def Particle.update (pt : Particle) (gbest_pos : List Fl) (r : Rng) : Particle × Rng :=
  let p1 := r.randFloat
  let p2 := p1.2.randFloat
  let r1 := p1.1
  let r2 := p2.1
  let vel := zipWith4 (fun v x pb gb =>
    (0.7 : Fl) * v + (1.5 : Fl) * r1 * (pb - x) + (2.0 : Fl) * r2 * (gb - x))
    pt.velocity pt.position pt.pbest_pos gbest_pos
  let pos := (pt.position.zip vel).map (fun xv => (xv.1 + xv.2).clip (0.001 : Fl) (1.0 : Fl))
  (⟨pos, vel, pt.pbest_pos, pt.pbest_score⟩, p2.2)

structure PsoMetrics where
  score : Fl
  delay : Fl
  reliability : Fl
  resource : Fl
  deriving DecidableEq

/-- The edge walk of `QoS_PSO_Solver.calculate_fitness`; `i` is the Python
loop index (processing delay of `u = path[i]` is added only for `i > 0`,
node reliability is taken from `v = path[i+1]`).  A missing edge raises
`KeyError` (`none` here). -/
def pso_fitness_edges (negLog : Fl → Fl) (g : Graph) :
    List (Nat × Nat) → Nat → Fl × Fl × Fl × Fl → Option (Fl × Fl × Fl × Fl)
  | [], _, st => some st
  | (u, v) :: rest, i, (td, rc, res, rp) =>
    match g.findEdge u v with
    | none => none
    | some d =>
      let td1 := td + d.link_delay
      let td2 := bif i == 0 then td1 else td1 + (g.nodeD u).proc_delay
      let linkRel := d.reliability
      let nodeRel := (g.nodeD v).reliability
      let rp' := rp * (linkRel * nodeRel)
      let rc' := rc + negLog (linkRel.pymax ⟨1, 1000000⟩) + negLog (nodeRel.pymax ⟨1, 1000000⟩)
      let bw := d.bandwidth.pymax ⟨1, 1000000⟩
      let res' := res + 1000 / bw
      pso_fitness_edges negLog g rest (i + 1) (td2, rc', res', rp')

/-- `calculate_fitness(path, weights)`: weighted score with the 10×
reliability scaling of the PSO source. -/
def pso_calculate_fitness (negLog : Fl → Fl) (g : Graph) (w : Fl × Fl × Fl)
    (path : List Nat) : Option PsoMetrics :=
  match pso_fitness_edges negLog g (pairsOf path) 0 (0, 0, 0, 1) with
  | none => none
  | some (td, rc, res, rp) =>
    some ⟨w.1 * td + w.2.1 * rc * 10 + w.2.2 * res, td, rp, res⟩

/-- Edges admitted by the PSO capacity filter (`bandwidth ≥ demand`). -/
def pso_available_edges (g : Graph) (demand : Fl) : List (Nat × Nat × EdgeData) :=
  g.edges.filter (fun e => !(e.2.2.bandwidth.blt demand))

def nodeIdxOf (g : Graph) (n : Nat) : Nat := g.nodeIds.findIdx (fun m => m == n)

/-- The per-particle edge reweighting (`temp_G[u][v]['pso_w'] =
particle.position[node_to_idx[v]]`, where `v` is the stored second
endpoint of the undirected edge) followed by
`nx.shortest_path(..., weight='pso_w')`. -/
def pso_particle_path (g tempG : Graph) (pos : List Fl) (src dst : Nat) : Option (List Nat) :=
  let wOf := fun (e : Nat × Nat × EdgeData) => pos.getD (nodeIdxOf g e.2.1) 0
  let succw := fun (u : Nat) => tempG.edges.filterMap (fun e =>
    bif e.1 == u then some (e.2.1, wOf e)
    else bif e.2.1 == u then some (e.1, wOf e) else none)
  dijkstraFrom succw (tempG.nodes.length + 2 * tempG.edges.length + 2) src dst

structure PsoBest where
  gbest_pos : List Fl
  gbest_path : Option (List Nat)
  gbest_metrics : Option PsoMetrics
  gbest_score : Option Fl
  deriving DecidableEq

/-- `x < inf`-style comparison against an optional score. -/
def ltOptScore (x : Fl) : Option Fl → Bool
  | none => true
  | some y => x.blt y

/-- One particle's evaluation phase inside an iteration. -/
def pso_eval_particle (negLog : Fl → Fl) (g tempG : Graph) (weights : Fl × Fl × Fl)
    (src dst : Nat) (pt : Particle) (st : PsoBest) : Particle × PsoBest :=
  match pso_particle_path g tempG pt.position src dst with
  | none => (pt, st)
  | some path =>
    match pso_calculate_fitness negLog g weights path with
    | none => (pt, st)
    | some m =>
      let pt' :=
        bif ltOptScore m.score pt.pbest_score then
          ⟨pt.position, pt.velocity, pt.position, some m.score⟩
        else pt
      let st' :=
        bif ltOptScore m.score st.gbest_score then
          ⟨pt.position, some path, some m, some m.score⟩
        else st
      (pt', st')

def pso_eval_swarm (negLog : Fl → Fl) (g tempG : Graph) (weights : Fl × Fl × Fl)
    (src dst : Nat) : List Particle → PsoBest → List Particle × PsoBest
  | [], st => ([], st)
  | pt :: rest, st =>
    let p := pso_eval_particle negLog g tempG weights src dst pt st
    let q := pso_eval_swarm negLog g tempG weights src dst rest p.2
    (p.1 :: q.1, q.2)

def pso_move_swarm (gbest_pos : List Fl) : List Particle → Rng → List Particle × Rng
  | [], r => ([], r)
  | pt :: rest, r =>
    let p := pt.update gbest_pos r
    let q := pso_move_swarm gbest_pos rest p.2
    (p.1 :: q.1, q.2)

def pso_iterations (negLog : Fl → Fl) (g tempG : Graph) (weights : Fl × Fl × Fl)
    (src dst : Nat) : Nat → List Particle → PsoBest → Rng → PsoBest × Rng
  | 0, _, st, r => (st, r)
  | it + 1, swarm, st, r =>
    let p := pso_eval_swarm negLog g tempG weights src dst swarm st
    let q := pso_move_swarm p.2.gbest_pos p.1 r
    pso_iterations negLog g tempG weights src dst it q.1 p.2 q.2

def pso_init_swarm (size : Nat) : Nat → Rng → List Particle × Rng
  | 0, r => ([], r)
  | n + 1, r =>
    let p := Particle.init size r
    let q := pso_init_swarm size n p.2
    (p.1 :: q.1, q.2)

/-- `QoS_PSO_Solver.solve_demand(src, dst, demand_value, weights)` with the
hard-coded `swarm_size = 30`, `iterations = 25`. -/
def solve_demand (negLog : Fl → Fl) (g : Graph) (src dst : Nat) (demand : Fl)
    (weights : Fl × Fl × Fl) (r : Rng) :
    (Option (List Nat) × Option PsoMetrics) × Rng :=
  bif g.edges.isEmpty then ((none, none), r)
  else
    let tempG : Graph := ⟨g.nodes, pso_available_edges g demand⟩
    bif !(tempG.hasPath src dst) then ((none, none), r)
    else
      let numNodes := g.nodeIds.length
      let sw := pso_init_swarm numNodes 30 r
      let gb := sw.2.uniformVec 0 1 numNodes
      let st0 : PsoBest := ⟨gb.1, none, none, none⟩
      let res := pso_iterations negLog g tempG weights src dst 25 sw.1 st0 gb.2
      ((res.1.gbest_path, res.1.gbest_metrics), res.2)

/-! ## `Algorithms/qlearning_algorithm.py` — Q-learning solver -/

/-- `self.edge_data.get((u, v))` after `load_network_from_graph`: only the
stored orientation of each undirected edge is keyed. -/
def qEdgeData (g : Graph) (u v : Nat) : Option EdgeData :=
  (g.edges.find? (fun e => e.1 == u && e.2.1 == v)).map (fun e => e.2.2)

def qLookup (qt : List ((Nat × Nat) × Fl)) (s a : Nat) : Fl :=
  ((qt.find? (fun p => p.1.1 == s && p.1.2 == a)).map (fun p => p.2)).getD 0

def qSet (qt : List ((Nat × Nat) × Fl)) (s a : Nat) (v : Fl) : List ((Nat × Nat) × Fl) :=
  ((s, a), v) :: qt.filter (fun p => !(p.1.1 == s && p.1.2 == a))

/-- `get_max_q_value(state)`: 0 for an isolated node, else the maximum
Q-value over the neighbours. -/
def get_max_q_value (g : Graph) (qt : List ((Nat × Nat) × Fl)) (state : Nat) : Fl :=
  match (g.neighbors state).map (fun n => qLookup qt state n) with
  | [] => 0
  | q :: qs => qs.foldl (fun acc x => acc.pymax x) q

/-- `choose_action(state, destination, visited, epsilon)`. -/
def choose_action (g : Graph) (qt : List ((Nat × Nat) × Fl)) (state destination : Nat)
    (visited : List Nat) (epsilon : Fl) (r : Rng) : Option Nat × Rng :=
  let unvisited := (g.neighbors state).filter (fun n => !(visited.contains n))
  bif unvisited.isEmpty then (none, r)
  else
    let afterDirect : Option Nat × Rng × Bool :=
      bif unvisited.contains destination then
        let p := r.randFloat
        bif (epsilon / 2).blt p.1 then (some destination, p.2, true) else (none, p.2, false)
      else (none, r, false)
    match afterDirect with
    | (some d, r1, _) => (some d, r1)
    | (none, r1, _) =>
      let p := r1.randFloat
      bif p.1.blt epsilon then
        let c := p.2.choice unvisited 0
        (some c.1, c.2)
      else
        let best := pyMaxBy (fun n => qLookup qt state n) 0 unvisited
        (some best, p.2)

/-- `calculate_path_cost(path, w_delay, w_rel, w_resource)`; `none` is the
`float('inf')` returned for degenerate paths.  Missing edges are skipped;
interior nodes contribute processing delay and reliability; both endpoints
contribute reliability. -/
def qpc_edge_step (negLog : Fl → Fl) (g : Graph) (acc : Fl × Fl × Fl) (uv : Nat × Nat) :
    Fl × Fl × Fl :=
  match qEdgeData g uv.1 uv.2 with
  | none => acc
  | some d =>
    let rc := bif (0 : Fl).blt d.reliability then negLog d.reliability else (100 : Fl)
    let res := bif (0 : Fl).blt d.bandwidth then 1000 / d.bandwidth else (1000 : Fl)
    (acc.1 + d.link_delay, acc.2.1 + rc, acc.2.2 + res)

def qpc_node_step (negLog : Fl → Fl) (g : Graph) (acc : Fl × Fl) (n : Nat) : Fl × Fl :=
  match g.getNode n with
  | none => acc
  | some nd =>
    let rc := bif (0 : Fl).blt nd.reliability then negLog nd.reliability else (100 : Fl)
    (acc.1 + nd.proc_delay, acc.2 + rc)

def qpc_end_step (negLog : Fl → Fl) (g : Graph) (acc : Fl) (n : Nat) : Fl :=
  match g.getNode n with
  | none => acc
  | some nd => bif (0 : Fl).blt nd.reliability then acc + negLog nd.reliability else acc

def calculate_path_cost (negLog : Fl → Fl) (g : Graph) (w_delay w_rel w_resource : Fl)
    (path : List Nat) : Option Fl :=
  bif path.length < 2 then none
  else
    let eacc := (pairsOf path).foldl (qpc_edge_step negLog g) (0, 0, 0)
    let iacc := (interiorOf path).foldl (qpc_node_step negLog g) (eacc.1, eacc.2.1)
    let endsRel := [path.headD 0, path.getLastD 0].foldl (qpc_end_step negLog g) iacc.2
    some (w_delay * iacc.1 + w_rel * endsRel * 100 + w_resource * eacc.2.2)

/-- `calculate_reward(path, destination, …)`. -/
def calculate_reward (negLog : Fl → Fl) (g : Graph) (path : List Nat) (destination : Nat)
    (w_delay w_rel w_resource bandwidth_demand : Fl) (reached : Bool) : Fl :=
  bif !reached || !(path.getLastD 0 == destination) then (-1000 : Fl)
  else bif (pairsOf path).any (fun uv =>
      match qEdgeData g uv.1 uv.2 with
      | none => false
      | some d => d.bandwidth.blt bandwidth_demand) then (-500 : Fl)
  else
    let reward := match calculate_path_cost negLog g w_delay w_rel w_resource path with
      | none => (0 : Fl)
      | some c => 1000 / (1 + c)
    reward - Fl.ofNat path.length * (0.1 : Fl)

/-- The step loop of `train_episode` (`max_steps = 100`). -/
def train_episode_loop (negLog : Fl → Fl) (g : Graph) (source destination : Nat)
    (w_delay w_rel w_resource bandwidth_demand alpha gamma epsilon : Fl) :
    Nat → Nat → List Nat → List Nat → List ((Nat × Nat) × Fl) → Rng →
    (List Nat × Bool × List ((Nat × Nat) × Fl) × Rng)
  | 0, _, path, _, qt, r => (path, false, qt, r)
  | fuel + 1, cur, path, visited, qt, r =>
    bif cur == destination then (path, true, qt, r)
    else
      match choose_action g qt cur destination visited epsilon r with
      | (none, r1) => (path, false, qt, r1)
      | (some act, r1) =>
        let path' := path ++ [act]
        let visited' := act :: visited
        let old_q := qLookup qt cur act
        let new_q :=
          bif act == destination then
            let fr := calculate_reward negLog g path' destination w_delay w_rel w_resource
              bandwidth_demand true
            old_q + alpha * (fr - old_q)
          else
            let mx := get_max_q_value g qt act
            old_q + alpha * ((-0.1 : Fl) + gamma * mx - old_q)
        let qt' := qSet qt cur act new_q
        train_episode_loop negLog g source destination w_delay w_rel w_resource
          bandwidth_demand alpha gamma epsilon fuel act path' visited' qt' r1

/-- `train_episode(source, destination, …)`: returns the walked path, its
total reward and whether the target was reached, together with the updated
Q-table. -/
def train_episode (negLog : Fl → Fl) (g : Graph) (source destination : Nat)
    (w_delay w_rel w_resource bandwidth_demand alpha gamma epsilon : Fl)
    (qt : List ((Nat × Nat) × Fl)) (r : Rng) :
    (List Nat × Fl × Bool × List ((Nat × Nat) × Fl) × Rng) :=
  let p := train_episode_loop negLog g source destination w_delay w_rel w_resource
    bandwidth_demand alpha gamma epsilon 100 source [source] [source] qt r
  let reward := calculate_reward negLog g p.1 destination w_delay w_rel w_resource
    bandwidth_demand p.2.1
  (p.1, reward, p.2.1, p.2.2.1, p.2.2.2)

/-- `x > best`-style comparison against an optional best (`-inf` = `none`). -/
def gtOptScore (x : Fl) : Option Fl → Bool
  | none => true
  | some y => y.blt x

structure QResult where
  path : List Nat
  total_delay : Fl
  final_reliability : Fl
  resource_cost : Fl
  success : Bool
  deriving DecidableEq

/-- The episode loop of `QLearningRouter.calculate_path`; `episode` counts
up for the epsilon schedule. -/
def qlearning_episode_loop (negLog : Fl → Fl) (g : Graph) (source target : Nat)
    (w_delay w_rel w_resource bandwidth_demand alpha gamma eps_start eps_end eps_decay : Fl) :
    Nat → Nat → List ((Nat × Nat) × Fl) → List Nat → Option Fl → Rng →
    (List Nat × Rng)
  | 0, _, _, best_path, _, r => (best_path, r)
  | rem + 1, episode, qt, best_path, best_reward, r =>
    let epsilon := eps_end.pymax (eps_start - Fl.ofNat episode * eps_decay)
    let p := train_episode negLog g source target w_delay w_rel w_resource bandwidth_demand
      alpha gamma epsilon qt r
    let reached := p.2.2.1
    let upd :=
      bif reached && gtOptScore p.2.1 best_reward then (p.1, some p.2.1)
      else (best_path, best_reward)
    qlearning_episode_loop negLog g source target w_delay w_rel w_resource bandwidth_demand
      alpha gamma eps_start eps_end eps_decay rem (episode + 1) p.2.2.2.1 upd.1 upd.2 p.2.2.2.2

/-- `QLearningRouter.calculate_path(source, target, …)` after
`load_network_from_graph(G)`, with a fresh Q-table (the method resets it).
`expfn` models `math.exp` in the final-reliability conversion. -/
def qlearning_calculate_path (negLog expfn : Fl → Fl) (g : Graph) (source target : Nat)
    (w_delay w_rel w_resource bandwidth_demand : Fl) (num_episodes : Nat)
    (alpha gamma eps_start eps_end : Fl) (r : Rng) : Option QResult × Rng :=
  bif !(g.nodeIds.contains source) || !(g.nodeIds.contains target) then (none, r)
  else
    let eps_decay := (eps_start - eps_end) / Fl.ofNat num_episodes
    let p := qlearning_episode_loop negLog g source target w_delay w_rel w_resource
      bandwidth_demand alpha gamma eps_start eps_end eps_decay num_episodes 0 [] [] none r
    bif p.1.isEmpty then (none, p.2)
    else
      let best := p.1
      let eacc := (pairsOf best).foldl (fun (acc : Fl × Fl × Fl) uv =>
        match qEdgeData g uv.1 uv.2 with
        | none => acc
        | some d =>
          (acc.1 + d.link_delay, acc.2.1 + negLog d.reliability,
            acc.2.2 + 1000 / d.bandwidth)) (0, 0, 0)
      let dacc := (interiorOf best).foldl (fun (acc : Fl) n =>
        match g.getNode n with
        | none => acc
        | some nd => acc + nd.proc_delay) eacc.1
      let racc := best.foldl (fun (acc : Fl) n =>
        match g.getNode n with
        | none => acc
        | some nd => acc + negLog nd.reliability) eacc.2.1
      (some ⟨best, dacc, expfn (-racc) * 100, eacc.2.2, true⟩, p.2)

/-! ## `Algorithms/sa_algorithm.py` — simulated-annealing solver -/

structure SaWeights where
  delay : Fl
  reliability : Fl
  resource : Fl
  deriving DecidableEq

structure SaMetrics where
  total_delay : Fl
  reliability_cost : Fl
  resource_cost : Fl
  final_reliability : Fl
  fitness : Fl
  path_length : Nat
  deriving DecidableEq

/-- `_filter_graph_by_bandwidth`: keep edges with
`d.get('capacity', d.get('bandwidth', inf)) ≥ bandwidth_demand`. -/
def sa_filter_graph (dg : DiGraph) (demand : Fl) : DiGraph :=
  ⟨dg.nodes, dg.dedges.filter (fun e => !((e.2.2.capacity.getD e.2.2.bandwidth).blt demand))⟩

/-- `calculate_total_cost(path)` on the bandwidth-filtered graph: `none`
models `(inf, None)` — returned for degenerate paths and whenever a
consecutive pair is not an edge of the filtered graph.  Precomputed
`reliability_cost` / `resource_cost` attributes are used when present
(`'reliability_cost' in edge_data`), otherwise recomputed with the 1e-6
clamps of the source.  Node terms run over interior nodes only. -/
def sa_edge_step (negLog : Fl → Fl) (fg : DiGraph) (acc : Option (Fl × Fl × Fl × Fl))
    (uv : Nat × Nat) : Option (Fl × Fl × Fl × Fl) :=
  match acc with
  | none => none
  | some (td, rc, res, rp) =>
    match fg.findEdge uv.1 uv.2 with
    | none => none
    | some d =>
      let td' := td + d.link_delay
      let rc' := match d.edge_rel_cost with
        | some c => rc + c
        | none => rc + negLog (d.reliability.pymax ⟨1, 1000000⟩)
      let res' := match d.edge_res_cost with
        | some c => res + c
        | none =>
          let bw := d.capacity.getD d.bandwidth
          res + 1000 / (bw.pymax ⟨1, 1000000⟩)
      some (td', rc', res', rp * d.reliability)

def sa_node_step (negLog : Fl → Fl) (fg : DiGraph) (acc : Fl × Fl × Fl) (n : Nat) :
    Fl × Fl × Fl :=
  let nd := fg.nodeD n
  let rc := match nd.node_rel_cost with
    | some c => acc.2.1 + c
    | none => acc.2.1 + negLog (nd.reliability.pymax ⟨1, 1000000⟩)
  (acc.1 + nd.proc_delay, rc, acc.2.2 * nd.reliability)

def sa_calculate_total_cost (negLog : Fl → Fl) (fg : DiGraph) (w : SaWeights)
    (path : List Nat) : Option (Fl × SaMetrics) :=
  bif path.length < 2 then none
  else
    let eacc := (pairsOf path).foldl (sa_edge_step negLog fg) (some (0, 0, 0, 1))
    match eacc with
    | none => none
    | some (td0, rc0, res0, rp0) =>
      let nacc := (interiorOf path).foldl (sa_node_step negLog fg) (td0, rc0, rp0)
      let fitness := w.delay * nacc.1 + w.reliability * nacc.2.1 + w.resource * res0
      some (fitness,
        ⟨nacc.1, nacc.2.1, res0, nacc.2.2 * 100, fitness, path.length⟩)

inductive SaStrategy where
  | swap
  | twoOpt
  | reversal
  | idle
  | fallback2opt
  deriving DecidableEq

/-- `_neighbor_swap`: exchange two random interior positions. -/
def sa_neighbor_swap (path : List Nat) (r : Rng) : List Nat × Rng :=
  bif path.length < 4 then (path, r)
  else
    let inner := interiorOf path
    bif inner.length < 2 then (path, r)
    else
      let s := Rng.sampleK 0 2 (List.range inner.length) r
      let idx1 := s.1.getD 0 0
      let idx2 := s.1.getD 1 0
      (listSwapAt path (idx1 + 1) (idx2 + 1), s.2)

/-- `_neighbor_2opt`: reverse the slice `path[i:j+1]`. -/
def sa_neighbor_2opt (path : List Nat) (r : Rng) : List Nat × Rng :=
  bif path.length < 4 then (path, r)
  else
    let pi := r.randIntAB 1 (path.length - 3)
    let i := pi.1
    let pj := pi.2.randIntAB (i + 1) (path.length - 2)
    let j := pj.1
    (path.take i ++ ((path.drop i).take (j + 1 - i)).reverse ++ path.drop (j + 1), pj.2)

/-- `_neighbor_reversal`: remove the directed edges of the chosen segment
and re-route it via a fresh unweighted shortest path, falling back to
2-opt when no alternative route exists. -/
def sa_neighbor_reversal (fg : DiGraph) (path : List Nat) (r : Rng) : List Nat × Rng :=
  bif path.length < 3 then (path, r)
  else
    let p1 := r.randIntAB 0 (path.length - 2)
    let idx1 := p1.1
    let p2 := p1.2.randIntAB (idx1 + 1) (path.length - 1)
    let idx2 := p2.1
    let u := path.getD idx1 0
    let v := path.getD idx2 0
    let tempG := (List.range (idx2 - idx1)).foldl (fun (tg : DiGraph) k =>
      tg.removeEdge (path.getD (idx1 + k) 0) (path.getD (idx1 + k + 1) 0)) fg
    match tempG.shortestPathHops u v with
    | some alt => (path.take idx1 ++ alt ++ path.drop (idx2 + 1), p2.2)
    | none => sa_neighbor_2opt path p2.2

/-- The bounded attempt loop of `generate_neighbor` (`max_attempts = 5`):
produce a candidate with the chosen strategy, apply the probabilistic tabu
admission (`not use_tabu or random() < 0.5 or not in tabu`), and keep only
candidates of finite cost. -/
def generate_neighbor_attempts (negLog : Fl → Fl) (fg : DiGraph) (w : SaWeights)
    (use_tabu : Bool) (tabu : List (List Nat)) (strat : SaStrategy) (current : List Nat) :
    Nat → Rng → Option (List Nat) × Rng
  | 0, r => (none, r)
  | att + 1, r =>
    let np := match strat with
      | .swap => sa_neighbor_swap current r
      | .twoOpt => sa_neighbor_2opt current r
      | _ => sa_neighbor_reversal fg current r
    let pass :=
      bif !use_tabu then (true, np.2)
      else
        let td := np.2.randFloat
        bif td.1.blt (0.5 : Fl) then (true, td.2)
        else (!(tabu.contains np.1), td.2)
    bif pass.1 then
      match sa_calculate_total_cost negLog fg w np.1 with
      | some _ => (some np.1, pass.2)
      | none => generate_neighbor_attempts negLog fg w use_tabu tabu strat current att pass.2
    else generate_neighbor_attempts negLog fg w use_tabu tabu strat current att pass.2

/-- `generate_neighbor(current_path, temperature_ratio)`: adaptive strategy
selection (swap above ratio 0.6, 2-opt above 0.3, reversal below), a 10%
chance of a uniformly random strategy, five validated attempts, then an
unvalidated 2-opt fallback.  (The embedded neighbour functions are total,
so the source's `except: return current_path, "failed"` is unreachable.) -/
def generate_neighbor (negLog : Fl → Fl) (fg : DiGraph) (w : SaWeights) (use_tabu : Bool)
    (tabu : List (List Nat)) (current : List Nat) (temp_ratio : Fl) (r : Rng) :
    (List Nat × SaStrategy) × Rng :=
  bif current.length < 3 then ((current, .idle), r)
  else
    let strat0 :=
      bif (0.6 : Fl).blt temp_ratio then SaStrategy.swap
      else bif (0.3 : Fl).blt temp_ratio then SaStrategy.twoOpt
      else SaStrategy.reversal
    let sd := r.randFloat
    let stratR :=
      bif sd.1.blt (0.1 : Fl) then
        sd.2.choice [SaStrategy.swap, SaStrategy.twoOpt, SaStrategy.reversal] SaStrategy.swap
      else (strat0, sd.2)
    match generate_neighbor_attempts negLog fg w use_tabu tabu stratR.1 current 5 stratR.2 with
    | (some np, r2) => ((np, stratR.1), r2)
    | (none, r2) =>
      let fb := sa_neighbor_2opt current r2
      ((fb.1, .fallback2opt), fb.2)

/-- The Metropolis test for a finite cost increase `delta ≥ 0`:
accept iff the drawn `r` is below `exp(-delta / T)`. -/
def metropolisAccept (expfn : Fl → Fl) (delta T r : Fl) : Bool :=
  bif delta.blt 0 then true
  else r.blt (expfn ((-delta) / T))

/-- The full acceptance step on optional (possibly infinite) costs.
`new = inf` gives `delta = inf` (or `nan` when both are infinite):
`exp(-delta/T)` is 0 (or `nan`) and `random() < 0` never holds, but the
draw is consumed.  `new` finite against `cur = inf` gives `delta = -inf`,
accepted without a draw. -/
def sa_accept_step (expfn : Fl → Fl) (cur_cost new_cost : Option Fl) (T : Fl) (r : Rng) :
    Bool × Rng :=
  match new_cost, cur_cost with
  | none, _ =>
    let d := r.randFloat
    (false, d.2)
  | some _, none => (true, r)
  | some nc, some cc =>
    bif (nc - cc).blt 0 then (true, r)
    else
      let d := r.randFloat
      (metropolisAccept expfn (nc - cc) T d.1, d.2)

/-- `x < y` on optional costs (`none` = `inf`). -/
def ltOptCost : Option Fl → Option Fl → Bool
  | some x, some y => x.blt y
  | some _, none => true
  | none, _ => false

/-- `deque(maxlen=cap).append`. -/
def tabuAppend (cap : Nat) (tabu : List (List Nat)) (p : List Nat) : List (List Nat) :=
  let t := tabu ++ [p]
  t.drop (t.length - cap)

structure SaParams where
  initial_temp : Fl
  final_temp : Fl
  alpha_phase1 : Fl
  alpha_phase2 : Fl
  phase_threshold : Nat
  markov_length : Nat
  tabu_size : Nat
  max_no_improve : Nat
  enable_restart : Bool
  max_restarts : Nat
  deriving DecidableEq

structure SaState where
  current_path : List Nat
  current_cost : Option Fl
  current_metrics : Option SaMetrics
  best_path : List Nat
  best_cost : Option Fl
  best_metrics : Option SaMetrics
  temp : Fl
  cooling_step : Nat
  iteration_count : Nat
  tabu : List (List Nat)
  no_improve : Nat
  restart_count : Nat
  accepted_moves : Nat
  total_moves : Nat
  epoch_accepts : Nat
  best_history : List (Option Fl)
  acceptance_history : List Fl
  strategies : List SaStrategy
  deriving DecidableEq

/-- One pass of the inner Markov loop of `run`.  (The state is
destructured into its fields and rebuilt explicitly; unchanged fields
pass through untouched.) -/
def sa_markov_iter (negLog expfn : Fl → Fl) (fg : DiGraph) (w : SaWeights) (ps : SaParams)
    (st : SaState) (r : Rng) : SaState × Rng :=
  match st with
  | ⟨cp, cc, cm, bp, bc, bm, T, cs, ic, tb, ni, rc, am, tm, ea, bh, ah, strat⟩ =>
    let use_tabu := decide (0 < ps.tabu_size)
    let ic1 := ic + 1
    let tm1 := tm + 1
    let temp_ratio := T / ps.initial_temp
    let gn := generate_neighbor negLog fg w use_tabu tb cp temp_ratio r
    let new_path := gn.1.1
    let ncr := sa_calculate_total_cost negLog fg w new_path
    let ncc := ncr.map (fun (p : Fl × SaMetrics) => p.1)
    let ncm := ncr.map (fun (p : Fl × SaMetrics) => p.2)
    let acc := sa_accept_step expfn cc ncc T gn.2
    bif acc.1 then
      let tb2 := bif use_tabu then tabuAppend ps.tabu_size tb new_path else tb
      bif ltOptCost ncc bc then
        (⟨new_path, ncc, ncm, new_path, ncc, ncm, T, cs, ic1, tb2, 0, rc, am + 1, tm1,
          ea + 1, bh, ah, strat ++ [gn.1.2]⟩, acc.2)
      else
        (⟨new_path, ncc, ncm, bp, bc, bm, T, cs, ic1, tb2, ni + 1, rc, am + 1, tm1,
          ea + 1, bh, ah, strat ++ [gn.1.2]⟩, acc.2)
    else
      (⟨cp, cc, cm, bp, bc, bm, T, cs, ic1, tb, ni, rc, am, tm1, ea, bh, ah,
        strat ++ [gn.1.2]⟩, acc.2)

def sa_markov_loop (negLog expfn : Fl → Fl) (fg : DiGraph) (w : SaWeights) (ps : SaParams) :
    Nat → SaState → Rng → SaState × Rng
  | 0, st, r => (st, r)
  | k + 1, st, r =>
    let p := sa_markov_iter negLog expfn fg w ps st r
    sa_markov_loop negLog expfn fg w ps k p.1 p.2

/-- The outer cooling loop of `run` (`while T > final_temp`): bump the
cooling step, pick the phase coefficient, run the Markov block, record the
epoch statistics, optionally restart, then cool.  (States are
destructured and rebuilt explicitly, as in `sa_markov_iter`.) -/
def sa_cooling_loop (negLog expfn : Fl → Fl) (fg : DiGraph) (w : SaWeights) (ps : SaParams) :
    Nat → SaState → Rng → SaState × Rng
  | 0, st, r => (st, r)
  | fuel + 1, st, r =>
    match st with
    | ⟨cp, cc, cm, bp, bc, bm, T, cs, ic, tb, ni, rc, am, tm, ea, bh, ah, strat⟩ =>
      bif !(ps.final_temp.blt T) then
        (⟨cp, cc, cm, bp, bc, bm, T, cs, ic, tb, ni, rc, am, tm, ea, bh, ah, strat⟩, r)
      else
        let cs1 := cs + 1
        let alpha := bif Nat.ble cs1 ps.phase_threshold then ps.alpha_phase1
          else ps.alpha_phase2
        let mk := sa_markov_loop negLog expfn fg w ps ps.markov_length
          ⟨cp, cc, cm, bp, bc, bm, T, cs1, ic, tb, ni, rc, am, tm, 0, bh, ah, strat⟩ r
        match mk.1 with
        | ⟨cp2, cc2, cm2, bp2, bc2, bm2, T2, cs2, ic2, tb2, ni2, rc2, am2, tm2, ea2,
            bh2, ah2, strat2⟩ =>
          let rate := Fl.ofNat ea2 / Fl.ofNat ps.markov_length
          let bh3 := bh2 ++ [bc2]
          let ah3 := ah2 ++ [rate]
          bif ps.enable_restart && decide (ps.max_no_improve < ni2) &&
              decide (rc2 < ps.max_restarts) then
            sa_cooling_loop negLog expfn fg w ps fuel
              ⟨bp2, bc2, bm2, bp2, bc2, bm2, ps.initial_temp * (0.7 : Fl) * alpha, cs2,
                ic2, tb2, 0, rc2 + 1, am2, tm2, ea2, bh3, ah3, strat2⟩ mk.2
          else
            sa_cooling_loop negLog expfn fg w ps fuel
              ⟨cp2, cc2, cm2, bp2, bc2, bm2, T2 * alpha, cs2, ic2, tb2, ni2, rc2, am2,
                tm2, ea2, bh3, ah3, strat2⟩ mk.2

/-- `SimulatedAnnealingRouting.run()`: bandwidth filter, initial shortest
path (failure if none), then the cooling loop.  The returned state carries
best path/cost/metrics and every diagnostic counter. -/
def sa_run (negLog expfn : Fl → Fl) (dg : DiGraph) (source target : Nat)
    (bandwidth_demand : Fl) (w : SaWeights) (ps : SaParams) (r : Rng) :
    Option SaState × Rng :=
  let fg := sa_filter_graph dg bandwidth_demand
  match fg.shortestPathHops source target with
  | none => (none, r)
  | some path0 =>
    let c0 := sa_calculate_total_cost negLog fg w path0
    let st0 : SaState := {
      current_path := path0, current_cost := c0.map (fun p => p.1),
      current_metrics := c0.map (fun p => p.2),
      best_path := path0, best_cost := c0.map (fun p => p.1),
      best_metrics := c0.map (fun p => p.2),
      temp := ps.initial_temp, cooling_step := 0, iteration_count := 0, tabu := [],
      no_improve := 0, restart_count := 0, accepted_moves := 0, total_moves := 0,
      epoch_accepts := 0, best_history := [], acceptance_history := [], strategies := [] }
    let res := sa_cooling_loop negLog expfn fg w ps 100000 st0 r
    (some res.1, res.2)

structure SaRouteResult where
  path : List Nat
  total_delay : Fl
  reliability_log : Fl
  resource_cost : Fl
  final_reliability : Fl
  deriving DecidableEq

/-- The parameter record built by `calculate_route_with_sa` (its defaults:
`initial_temp=300, final_temp=1.0, alpha_phase1=0.85, alpha_phase2=0.80,
markov_length=50, tabu_size=10, max_no_improve=50, enable_restart=False`;
the class fixes `phase_threshold=15` and `max_restarts=3`). -/
def saWrapperParams : SaParams :=
  ⟨(300 : Fl), (1.0 : Fl), (0.85 : Fl), (0.80 : Fl), 15, 50, 10, 50, false, 3⟩

/-- `calculate_route_with_sa(graph, source, target, bandwidth_demand,
weights)`: convert the undirected graph to a digraph (both orientations),
run the annealer, and repackage the best metrics.  A missing metrics
dictionary would raise a `KeyError` inside the wrapper's `try`, surfacing
as `None`. -/
def calculate_route_with_sa (negLog expfn : Fl → Fl) (g : Graph) (source target : Nat)
    (bandwidth_demand : Fl) (w : SaWeights) (r : Rng) : Option SaRouteResult × Rng :=
  let dg := g.toDiGraph
  match sa_run negLog expfn dg source target bandwidth_demand w saWrapperParams r with
  | (none, r1) => (none, r1)
  | (some st, r1) =>
    bif st.best_path.isEmpty then (none, r1)
    else
      match st.best_metrics with
      | none => (none, r1)
      | some m =>
        (some ⟨st.best_path, m.total_delay, m.reliability_cost, m.resource_cost,
          m.final_reliability⟩, r1)

/-! ## `topology.py` — dispatcher (`TopologyManager.calculate_path`) -/

inductive Alg where
  | dijkstra
  | qlearning
  | pso
  | genetik
  | sa
  deriving DecidableEq

structure TopoResult where
  path : List Nat
  total_delay : Fl
  final_reliability : Fl
  resource_cost : Fl
  deriving DecidableEq

/-- The weight normalisation of `calculate_path`: a zero total is replaced
by 1 before dividing. -/
def normalizeWeights (w_delay w_rel w_res : Fl) : Fl × Fl × Fl :=
  let total0 := w_delay + w_rel + w_res
  let total := bif total0.beq 0 then (1 : Fl) else total0
  (w_delay / total, w_rel / total, w_res / total)

/-- The per-edge `dynamic_weight` recomputation that `calculate_path`
performs on `self.G` before dispatching (this mutates the caller's graph). -/
def recomputeDynamicWeights (negLog : Fl → Fl) (g : Graph) (wd wr wres : Fl) : Graph :=
  ⟨g.nodes, g.edges.map (fun e =>
    let d := e.2.2
    let cost_delay := d.link_delay
    let cost_rel := bif (0 : Fl).blt d.reliability then negLog d.reliability else (100 : Fl)
    let cost_res := bif (0 : Fl).blt d.bandwidth then 1000 / d.bandwidth else (1000 : Fl)
    let total := wd * cost_delay + wr * cost_rel * 100 + wres * cost_res
    (e.1, e.2.1, { d with dynamic_weight := some total }))⟩

/-- `nx.shortest_path(G, source, target, weight='dynamic_weight')`. -/
def dynamicShortestPath (g : Graph) (s t : Nat) : Option (List Nat) :=
  let succw := fun (u : Nat) => g.edges.filterMap (fun e =>
    bif e.1 == u then some (e.2.1, e.2.2.dynamic_weight.getD 0)
    else bif e.2.1 == u then some (e.1, e.2.2.dynamic_weight.getD 0) else none)
  dijkstraFrom succw (g.nodes.length + 2 * g.edges.length + 2) s t

/-- The Dijkstra-branch metric computation of `calculate_path`: edge sums,
interior processing delays, and the log-reliability round trip
`final_reliability = exp(-Σ -ln r) * 100`. -/
def topoDijkstraMetrics (negLog expfn : Fl → Fl) (g : Graph) (path : List Nat) : TopoResult :=
  let eacc := (pairsOf path).foldl (fun (acc : Fl × Fl × Fl) uv =>
    match g.findEdge uv.1 uv.2 with
    | none => acc
    | some d =>
      (acc.1 + d.link_delay, acc.2.1 + negLog d.reliability, acc.2.2 + 1000 / d.bandwidth))
    (0, 0, 0)
  let dacc := (interiorOf path).foldl (fun (acc : Fl) n => acc + (g.nodeD n).proc_delay) eacc.1
  ⟨path, dacc, expfn (-eacc.2.1) * 100, eacc.2.2⟩

/-- `TopologyManager.calculate_path(source, target, w_delay, w_rel, w_res,
algorithm, demand_value)` with the default `algo_params` (Q-learning:
`alpha=0.1, gamma=0.9, epsilon=0.9, episodes=500`; no seeding).  Returns
the result together with the final state of `self.G` (the caller's graph,
mutated by the `dynamic_weight` recomputation).  Every solver failure —
including the exception raised by an unseedable GA population — is caught
and surfaced as `none`. -/
def topo_calculate_path (negLog expfn : Fl → Fl) (gOpt : Option Graph) (source target : Nat)
    (w_delay w_rel w_res : Fl) (alg : Alg) (demand_value : Fl) (r : Rng) :
    Option TopoResult × Option Graph × Rng :=
  match gOpt with
  | none => (none, none, r)
  | some g =>
    let nw := normalizeWeights w_delay w_rel w_res
    let wd := nw.1
    let wr := nw.2.1
    let wres := nw.2.2
    let g' := recomputeDynamicWeights negLog g wd wr wres
    match alg with
    | .qlearning =>
      let q := qlearning_calculate_path negLog expfn g' source target w_delay w_rel w_res
        demand_value 500 (0.1 : Fl) (0.9 : Fl) (0.9 : Fl) (0.05 : Fl) r
      match q.1 with
      | none => (none, some g', q.2)
      | some res => (some ⟨res.path, res.total_delay, res.final_reliability,
          res.resource_cost⟩, some g', q.2)
    | .pso =>
      let p := solve_demand negLog g' source target demand_value (wd, wr, wres) r
      match p.1 with
      | (some path, some m) =>
        bif path.isEmpty then (none, some g', p.2)
        else (some ⟨path, m.delay, m.reliability * 100, m.resource⟩, some g', p.2)
      | _ => (none, some g', p.2)
    | .genetik =>
      match genetik_calistir negLog g' source target demand_value ⟨wd, wr, wres⟩ r with
      | .error _ => (none, some g', r)
      | .ok (best, gF, r1) =>
        match get_path_metrics negLog gF best demand_value with
        | none => (none, some g', r1)
        | some m => (some ⟨m.path, m.total_delay, m.total_reliability * 100,
            m.resource_cost⟩, some g', r1)
    | .sa =>
      let s := calculate_route_with_sa negLog expfn g' source target demand_value
        ⟨wd, wr, wres⟩ r
      match s.1 with
      | none => (none, some g', s.2)
      | some res => (some ⟨res.path, res.total_delay, res.final_reliability,
          res.resource_cost⟩, some g', s.2)
    | .dijkstra =>
      match dynamicShortestPath g' source target with
      | none => (none, some g', r)
      | some path =>
        bif path.isEmpty then (none, some g', r)
        else (some (topoDijkstraMetrics negLog expfn g' path), some g', r)

/-! ## Spec-side reference definitions

These definitions follow the specification's wording (sums of
`-ln(reliability)` over edges and node sets, the closed-form cooling-step
count) and are compared against the corresponding quantities computed by
the embedded solvers. -/

/-- The ε-clamped per-reliability term `-ln(max(r, 1e-6))` of the spec's
cost model, as a rational. -/
def relTermQ (negLog : Fl → Fl) (r : Fl) : ℚ := (negLog (r.pymax ⟨1, 1000000⟩)).val

/-- Spec: sum of `-ln(reliability)` over the edges of a path (undirected
lookup). -/
def specEdgeRelSumQ (negLog : Fl → Fl) (g : Graph) (p : List Nat) : ℚ :=
  ((pairsOf p).map (fun uv => match g.findEdge uv.1 uv.2 with
    | none => 0
    | some d => relTermQ negLog d.reliability)).sum

/-- Spec: sum of `-ln(reliability)` over the edges of a path (directed
lookup, for the annealer's filtered digraph). -/
def specEdgeRelSumDQ (negLog : Fl → Fl) (fg : DiGraph) (p : List Nat) : ℚ :=
  ((pairsOf p).map (fun uv => match fg.findEdge uv.1 uv.2 with
    | none => 0
    | some d => relTermQ negLog d.reliability)).sum

/-- Spec: sum of `-ln(reliability)` over a set of nodes of an undirected
graph. -/
def specNodeRelSumQ (negLog : Fl → Fl) (g : Graph) (ns : List Nat) : ℚ :=
  (ns.map (fun n => relTermQ negLog (g.nodeD n).reliability)).sum

/-- Spec: the same node sum over the annealer's digraph. -/
def specNodeRelSumDQ (negLog : Fl → Fl) (fg : DiGraph) (ns : List Nat) : ℚ :=
  (ns.map (fun n => relTermQ negLog (fg.nodeD n).reliability)).sum

/-- Spec: sum of processing delays over a set of nodes. -/
def specProcSumQ (g : Graph) (ns : List Nat) : ℚ :=
  (ns.map (fun n => (g.nodeD n).proc_delay.val)).sum

/-- Spec: sum of link delays over the edges of a path. -/
def specLinkDelaySumQ (g : Graph) (p : List Nat) : ℚ :=
  ((pairsOf p).map (fun uv => match g.findEdge uv.1 uv.2 with
    | none => 0
    | some d => d.link_delay.val)).sum

/-- The PSO solver's internal `reliability_cost` accumulator (the second
component of the tuple threaded through `calculate_fitness`'s edge walk). -/
def pso_reliability_cost (negLog : Fl → Fl) (g : Graph) (p : List Nat) : Option Fl :=
  (pso_fitness_edges negLog g (pairsOf p) 0 (0, 0, 0, 1)).map
    (fun st => st.2.1)

/-- The number of cooling steps `⌈log(T_final/T0)/log α⌉` claimed by the
spec, in its equivalent executable form: the least `n` with
`T0 · αⁿ ≤ T_final` (for `0 < α < 1` and `T_final < T0` the ceiling
formula and this count coincide). -/
def geomCoolingSteps (T0 Tf alpha : Fl) : Nat → Fl → Nat
  | 0, _ => 0
  | fuel + 1, T => bif Tf.blt T then geomCoolingSteps T0 Tf alpha fuel (T * alpha) + 1 else 0

def claimedCoolingSteps : Nat := geomCoolingSteps 300 1 (0.85 : Fl) 1000 300

/-- The cooling-step count of the two-phase schedule the wrapper actually
runs (`α = 0.85` for the first 15 steps, then `α = 0.80`). -/
def twoPhaseCoolingSteps (Tf a1 a2 : Fl) (threshold : Nat) : Nat → Nat → Fl → Nat
  | 0, _, _ => 0
  | fuel + 1, step, T =>
    bif Tf.blt T then
      let alpha := bif Nat.ble (step + 1) threshold then a1 else a2
      twoPhaseCoolingSteps Tf a1 a2 threshold fuel (step + 1) (T * alpha) + 1
    else 0

def actualCoolingSteps : Nat := twoPhaseCoolingSteps 1 (0.85 : Fl) (0.80 : Fl) 15 1000 0 300

/-- Projection of a GA run onto its error, if any. -/
def gaErrOf {α : Type} (x : Except GaError α) : Option GaError :=
  match x with
  | .error e => some e
  | .ok _ => none

/-- Projection of a generation step onto the produced population. -/
def gaPopOf (x : Except GaError (List (List Nat) × Rng)) : Option (List (List Nat)) :=
  match x with
  | .error _ => none
  | .ok p => some p.1

/-- The minimum fitness of a population (Python
`fitness(min(population, key=fitness))`). -/
def minFitness (negLog : Fl → Fl) (g : Graph) (w : GaWeights) (pop : List (List Nat)) : Fl :=
  ga_fitness negLog g w (pyMinBy (ga_fitness negLog g w) [] pop)

/-- `b` is a successor of `a` under a weighted successor function. -/
def SuccStep (succw : Nat → List (Nat × Fl)) (a b : Nat) : Prop :=
  ∃ w, (b, w) ∈ succw a

/-! ## Concrete instances

All reliabilities in these graphs are 1 and the stub `negLogStub = 0`,
`expOneStub = 1` agree with the mathematical `-ln` / `exp` at every
argument the concrete executions evaluate them on (`-ln 1 = 0`,
`e^0 = 1`). -/

def negLogStub : Fl → Fl := fun _ => 0

def expOneStub : Fl → Fl := fun _ => 1

/-- A value stand-in for `-ln` used only to exhibit structural
counterexamples (any function with `negLogId (1/2) ≠ 0` works, as does
`-ln` itself). -/
def negLogId : Fl → Fl := fun x => x

def oracle0 : Rng := ⟨fun _ => 0, 0⟩

def oracle500 : Rng := ⟨fun _ => 500, 0⟩

/-- The decision stream of the simulated-annealing counterexample run:
draw 1 picks the `reversal` strategy, draw 3 picks the segment end
`idx2 = 2`; every other decision is 0. -/
def oracleC1 : Rng := ⟨fun n => bif n == 1 then 2 else bif n == 3 then 1 else 0, 0⟩

def nd1 : NodeData := { proc_delay := 0, reliability := 1 }

def ndHalf : NodeData := { proc_delay := 1, reliability := ⟨1, 2⟩ }

def e50 : EdgeData := { bandwidth := 50, link_delay := 5, reliability := 1 }

def e1000 : EdgeData := { bandwidth := 1000, link_delay := 5, reliability := 1 }

def eSlow : EdgeData := { bandwidth := 1000, link_delay := 100, reliability := 1 }

def eFast : EdgeData := { bandwidth := 1000, link_delay := 1, reliability := 1 }

/-- Two nodes joined by a single edge of bandwidth 50 (the spec's
disconnected-after-filtering scenario, demand 100). -/
def G50 : Graph := ⟨[(0, nd1), (1, nd1)], [(0, 1, e50)]⟩

/-- Two nodes joined by a single edge of ample bandwidth. -/
def G2ok : Graph := ⟨[(0, nd1), (1, nd1)], [(0, 1, e1000)]⟩

/-- Seven nodes: an expensive 3-hop chain 0–1–2–3 (the unique minimum-hop
route) and a cheap detour 0–4–5–6–3. -/
def G7 : Graph :=
  ⟨[(0, nd1), (1, nd1), (2, nd1), (3, nd1), (4, nd1), (5, nd1), (6, nd1)],
    [(0, 1, eSlow), (1, 2, eSlow), (2, 3, eSlow),
      (0, 4, eFast), (4, 5, eFast), (5, 6, eFast), (6, 3, eFast)]⟩

/-- Two isolated nodes (no edge at all). -/
def Gpair : Graph := ⟨[(0, nd1), (1, nd1)], []⟩

/-- Source node of reliability 1/2, target of reliability 1, one perfect
edge: separates the four models' node-reliability conventions. -/
def G4 : Graph := ⟨[(0, ndHalf), (1, nd1)], [(0, 1, e1000)]⟩

/-- A triangle of perfect edges (three nodes, all connected). -/
def G3 : Graph := ⟨[(0, nd1), (1, nd1), (2, nd1)],
  [(0, 1, e1000), (0, 2, e1000), (1, 2, e1000)]⟩

def gaW100 : GaWeights := ⟨1, 0, 0⟩

def saW100 : SaWeights := ⟨1, 0, 0⟩

/-- The population used to exercise one generation step of the GA. -/
def c8pop : List (List Nat) := [[0, 1, 2, 3], [0, 4, 5, 6, 3], [0, 1, 2, 3]]

/-- The population produced by that generation step (computed, not
spelled out). -/
def c8popResult : List (List Nat) :=
  (gaPopOf (genetik_algoritmasi negLogStub G7 gaW100 c8pop oracle500)).getD []

/-- Positive-denominator well-formedness of a graph's attributes. -/
def Graph.WF (g : Graph) : Prop :=
  (∀ p ∈ g.nodes, p.2.proc_delay.Pos ∧ p.2.reliability.Pos) ∧
  (∀ e ∈ g.edges, e.2.2.bandwidth.Pos ∧ e.2.2.link_delay.Pos ∧ e.2.2.reliability.Pos)

instance (g : Graph) : Decidable g.WF :=
  inferInstanceAs (Decidable (_ ∧ _))

/-- A function producing only positive-denominator fractions (every
faithful model of `-ln` or `exp` in this embedding does). -/
def PosFun (f : Fl → Fl) : Prop := ∀ x, (f x).Pos

def oracle1 : Rng := ⟨fun _ => 1, 0⟩

/-- The weights record with positive denominators. -/
def GaWeights.WF (w : GaWeights) : Prop :=
  w.w_delay.Pos ∧ w.w_reliability.Pos ∧ w.w_resource.Pos

instance (w : GaWeights) : Decidable w.WF := inferInstanceAs (Decidable (_ ∧ _))

/-- Two edge records agreeing on every attribute except possibly the
`dynamic_weight` scratch field. -/
def sameButDynamic (d d' : EdgeData) : Prop :=
  d'.bandwidth = d.bandwidth ∧ d'.link_delay = d.link_delay ∧
  d'.reliability = d.reliability ∧ d'.capacity = d.capacity ∧
  d'.edge_rel_cost = d.edge_rel_cost ∧ d'.edge_res_cost = d.edge_res_cost

/-! # Theorems

First a lemma kit relating `Fl` arithmetic and order to rational values
(sound under positive denominators), then the solver-level lemmas, then
the claim theorems. -/

theorem Fl.den_pos_q {a : Fl} (ha : a.Pos) : (0 : ℚ) < (a.den : ℚ) := by
  exact_mod_cast ha

theorem Fl.den_ne_q {a : Fl} (ha : a.Pos) : (a.den : ℚ) ≠ 0 :=
  ne_of_gt (Fl.den_pos_q ha)

theorem Fl.Pos.add {a b : Fl} (ha : a.Pos) (hb : b.Pos) : (a + b).Pos :=
  Int.mul_pos ha hb

theorem Fl.Pos.mul {a b : Fl} (ha : a.Pos) (hb : b.Pos) : (a * b).Pos :=
  Int.mul_pos ha hb

theorem Fl.Pos.neg {a : Fl} (ha : a.Pos) : (-a).Pos := ha

theorem Fl.Pos.sub {a b : Fl} (ha : a.Pos) (hb : b.Pos) : (a - b).Pos :=
  Int.mul_pos ha hb

theorem Fl.Pos.inv (a : Fl) : a.inv.Pos := by
  by_cases h1 : 0 < a.num
  · simp only [Fl.inv, Fl.Pos, if_pos h1]
    exact h1
  · by_cases h2 : a.num < 0
    · simp only [Fl.inv, Fl.Pos, if_neg h1, if_pos h2]
      omega
    · simp only [Fl.inv, Fl.Pos, if_neg h1, if_neg h2]
      omega

theorem Fl.Pos.div {a : Fl} (b : Fl) (ha : a.Pos) : (a / b).Pos :=
  Int.mul_pos ha (Fl.Pos.inv b)

theorem Fl.Pos.ofNat (n : Nat) : (Fl.ofNat n).Pos := Int.one_pos

theorem Fl.Pos.ofNatLit (n : Nat) : (OfNat.ofNat n : Fl).Pos := Int.one_pos

theorem Fl.Pos.pymax {a b : Fl} (ha : a.Pos) (hb : b.Pos) : (a.pymax b).Pos := by
  unfold Fl.pymax
  cases h : a.blt b
  · simpa [h] using ha
  · simpa [h] using hb

theorem Fl.Pos.pymin {a b : Fl} (ha : a.Pos) (hb : b.Pos) : (a.pymin b).Pos := by
  unfold Fl.pymin
  cases h : b.blt a
  · simpa [h] using ha
  · simpa [h] using hb

theorem Fl.val_add {a b : Fl} (ha : a.Pos) (hb : b.Pos) : (a + b).val = a.val + b.val := by
  show Fl.val ⟨a.num * b.den + b.num * a.den, a.den * b.den⟩ = _
  unfold Fl.val
  have h1 := Fl.den_ne_q ha
  have h2 := Fl.den_ne_q hb
  push_cast
  rw [div_add_div _ _ h1 h2]
  ring_nf

theorem Fl.val_neg (a : Fl) : (-a).val = -a.val := by
  show Fl.val ⟨-a.num, a.den⟩ = _
  unfold Fl.val
  push_cast
  ring

theorem Fl.val_sub {a b : Fl} (ha : a.Pos) (hb : b.Pos) : (a - b).val = a.val - b.val := by
  show (a + -b).val = _
  rw [Fl.val_add ha (Fl.Pos.neg hb), Fl.val_neg]
  ring

theorem Fl.val_mul (a b : Fl) : (a * b).val = a.val * b.val := by
  show Fl.val ⟨a.num * b.num, a.den * b.den⟩ = _
  unfold Fl.val
  push_cast
  ring

theorem Fl.val_inv {a : Fl} (ha : a.Pos) : a.inv.val = a.val⁻¹ := by
  unfold Fl.inv
  split
  · unfold Fl.val
    rw [inv_div]
  · split
    · unfold Fl.val
      push_cast
      rw [inv_div, neg_div_neg_eq]
    · have hz : a.num = 0 := by omega
      unfold Fl.val
      rw [hz]
      norm_num

theorem Fl.val_div {a b : Fl} (ha : a.Pos) (hb : b.Pos) : (a / b).val = a.val / b.val := by
  show (a * b.inv).val = _
  rw [Fl.val_mul, Fl.val_inv hb, div_eq_mul_inv]

theorem Fl.lt_iff_val {a b : Fl} (ha : a.Pos) (hb : b.Pos) : a < b ↔ a.val < b.val := by
  show a.num * b.den < b.num * a.den ↔ _
  unfold Fl.val
  rw [div_lt_div_iff (Fl.den_pos_q ha) (Fl.den_pos_q hb)]
  exact_mod_cast Iff.rfl

theorem Fl.le_iff_val {a b : Fl} (ha : a.Pos) (hb : b.Pos) : a ≤ b ↔ a.val ≤ b.val := by
  show a.num * b.den ≤ b.num * a.den ↔ _
  unfold Fl.val
  rw [div_le_div_iff (Fl.den_pos_q ha) (Fl.den_pos_q hb)]
  exact_mod_cast Iff.rfl

theorem Fl.blt_iff (a b : Fl) : a.blt b = true ↔ a < b := by
  unfold Fl.blt
  exact decide_eq_true_iff

theorem Fl.ble_iff (a b : Fl) : a.ble b = true ↔ a ≤ b := by
  unfold Fl.ble
  exact decide_eq_true_iff

theorem Fl.blt_false_iff (a b : Fl) : a.blt b = false ↔ b ≤ a := by
  unfold Fl.blt
  rw [decide_eq_false_iff_not]
  show ¬ a.num * b.den < b.num * a.den ↔ b.num * a.den ≤ a.num * b.den
  omega

theorem Fl.ble_false_iff (a b : Fl) : a.ble b = false ↔ b < a := by
  unfold Fl.ble
  rw [decide_eq_false_iff_not]
  show ¬ a.num * b.den ≤ b.num * a.den ↔ b.num * a.den < a.num * b.den
  omega

theorem Fl.equiv_iff_val {a b : Fl} (ha : a.Pos) (hb : b.Pos) : a.Equiv b ↔ a.val = b.val := by
  unfold Fl.Equiv Fl.val
  rw [div_eq_div_iff (Fl.den_ne_q ha) (Fl.den_ne_q hb)]
  exact_mod_cast Iff.rfl

theorem Fl.beq_iff_val {a b : Fl} (ha : a.Pos) (hb : b.Pos) :
    a.beq b = true ↔ a.val = b.val := by
  unfold Fl.beq
  rw [beq_iff_eq]
  exact (Fl.equiv_iff_val ha hb)

theorem Fl.num_zero_of_val_zero {a : Fl} (ha : a.Pos) (h : a.val = 0) : a.num = 0 := by
  unfold Fl.val at h
  rw [div_eq_zero_iff] at h
  rcases h with h | h
  · exact_mod_cast h
  · exact absurd h (Fl.den_ne_q ha)

/-! ## Membership and minimality of the Python `min`/`max`/`sorted` models -/

theorem foldlMin_mem {α : Type} (f : α → Fl) :
    ∀ (xs : List α) (acc : α),
      xs.foldl (fun acc y => bif (f y).blt (f acc) then y else acc) acc = acc ∨
      xs.foldl (fun acc y => bif (f y).blt (f acc) then y else acc) acc ∈ xs := by
  intro xs
  induction xs with
  | nil => intro acc; left; rfl
  | cons y ys ih =>
    intro acc
    simp only [List.foldl_cons]
    rcases ih (bif (f y).blt (f acc) then y else acc) with h | h
    · rw [h]
      cases hb : (f y).blt (f acc)
      · left; simp
      · right; simp
    · right; exact List.mem_cons_of_mem _ h

theorem pyMinBy_mem {α : Type} (f : α → Fl) (dflt : α) (l : List α) (h : l ≠ []) :
    pyMinBy f dflt l ∈ l := by
  match l with
  | x :: xs =>
    show xs.foldl (fun acc y => bif (f y).blt (f acc) then y else acc) x ∈ x :: xs
    rcases foldlMin_mem f xs x with h1 | h1
    · rw [h1]; exact List.mem_cons_self _ _
    · exact List.mem_cons_of_mem _ h1

theorem foldlMin_le {α : Type} (f : α → Fl) :
    ∀ (xs : List α) (acc : α), (∀ x ∈ xs, (f x).Pos) → (f acc).Pos →
      (f (xs.foldl (fun acc y => bif (f y).blt (f acc) then y else acc) acc)).val ≤
          (f acc).val ∧
        ∀ z ∈ xs,
          (f (xs.foldl (fun acc y => bif (f y).blt (f acc) then y else acc) acc)).val ≤
            (f z).val := by
  intro xs
  induction xs with
  | nil => intro acc _ _; exact ⟨le_refl _, by simp⟩
  | cons y ys ih =>
    intro acc hxs hacc
    have hy : (f y).Pos := hxs y (List.mem_cons_self _ _)
    have hys : ∀ x ∈ ys, (f x).Pos := fun x hx => hxs x (List.mem_cons_of_mem _ hx)
    simp only [List.foldl_cons]
    have hacc' : (f (bif (f y).blt (f acc) then y else acc)).Pos := by
      cases hb : (f y).blt (f acc) <;> simpa [hb]
    have hle : (f (bif (f y).blt (f acc) then y else acc)).val ≤ (f acc).val ∧
        (f (bif (f y).blt (f acc) then y else acc)).val ≤ (f y).val := by
      cases hb : (f y).blt (f acc)
      · have := (Fl.blt_false_iff (f y) (f acc)).mp hb
        have := (Fl.le_iff_val hacc hy).mp this
        simp only [hb, cond_false]
        exact ⟨le_refl _, this⟩
      · have := (Fl.blt_iff (f y) (f acc)).mp hb
        have := (Fl.lt_iff_val hy hacc).mp this
        simp only [hb, cond_true]
        exact ⟨le_of_lt this, le_refl _⟩
    obtain ⟨ih1, ih2⟩ := ih _ hys hacc'
    refine ⟨le_trans ih1 hle.1, ?_⟩
    intro z hz
    rcases List.mem_cons.mp hz with rfl | hz'
    · exact le_trans ih1 hle.2
    · exact ih2 z hz'

theorem pyMinBy_le {α : Type} (f : α → Fl) (dflt : α) (l : List α)
    (hpos : ∀ x ∈ l, (f x).Pos) : ∀ y ∈ l, (f (pyMinBy f dflt l)).val ≤ (f y).val := by
  match l with
  | [] => intro y hy; cases hy
  | x :: xs =>
    intro y hy
    unfold pyMinBy
    have hx : (f x).Pos := hpos x (List.mem_cons_self _ _)
    have hxs : ∀ z ∈ xs, (f z).Pos := fun z hz => hpos z (List.mem_cons_of_mem _ hz)
    obtain ⟨h1, h2⟩ := foldlMin_le f xs x hxs hx
    rcases List.mem_cons.mp hy with rfl | hy'
    · exact h1
    · exact h2 y hy'

theorem foldlMax_mem {α : Type} (f : α → Fl) :
    ∀ (xs : List α) (acc : α),
      xs.foldl (fun acc y => bif (f acc).blt (f y) then y else acc) acc = acc ∨
      xs.foldl (fun acc y => bif (f acc).blt (f y) then y else acc) acc ∈ xs := by
  intro xs
  induction xs with
  | nil => intro acc; left; rfl
  | cons y ys ih =>
    intro acc
    simp only [List.foldl_cons]
    rcases ih (bif (f acc).blt (f y) then y else acc) with h | h
    · rw [h]
      cases hb : (f acc).blt (f y)
      · left; simp
      · right; simp
    · right; exact List.mem_cons_of_mem _ h

theorem pyMaxBy_mem {α : Type} (f : α → Fl) (dflt : α) (l : List α) (h : l ≠ []) :
    pyMaxBy f dflt l ∈ l := by
  match l with
  | x :: xs =>
    show xs.foldl (fun acc y => bif (f acc).blt (f y) then y else acc) x ∈ x :: xs
    rcases foldlMax_mem f xs x with h1 | h1
    · rw [h1]; exact List.mem_cons_self _ _
    · exact List.mem_cons_of_mem _ h1

theorem insertByKey_perm {α : Type} (f : α → Fl) (x : α) :
    ∀ l : List α, List.Perm (insertByKey f x l) (x :: l) := by
  intro l
  induction l with
  | nil => exact List.Perm.refl _
  | cons y ys ih =>
    unfold insertByKey
    cases (f x).ble (f y)
    · simp only [cond_false]
      exact List.Perm.trans (List.Perm.cons y ih) (List.Perm.swap x y ys)
    · simp only [cond_true]
      exact List.Perm.refl _

theorem sortByKey_perm {α : Type} (f : α → Fl) :
    ∀ l : List α, List.Perm (sortByKey f l) l := by
  intro l
  induction l with
  | nil => exact List.Perm.refl _
  | cons x xs ih =>
    unfold sortByKey
    exact List.Perm.trans (insertByKey_perm f x (sortByKey f xs)) (List.Perm.cons x ih)

theorem sortByKey_ne_nil {α : Type} (f : α → Fl) (l : List α) (h : l ≠ []) :
    sortByKey f l ≠ [] := by
  intro hc
  have := (sortByKey_perm f l).length_eq
  rw [hc] at this
  exact h (List.length_eq_zero.mp this.symm)

theorem sortByKey_head_min {α : Type} (f : α → Fl) (d : α) :
    ∀ l : List α, (∀ x ∈ l, (f x).Pos) →
      ∀ y ∈ l, (f ((sortByKey f l).headD d)).val ≤ (f y).val := by
  intro l
  induction l with
  | nil => intro _ y hy; cases hy
  | cons x xs ih =>
    intro hpos y hy
    have hx : (f x).Pos := hpos x (List.mem_cons_self _ _)
    have hxs : ∀ z ∈ xs, (f z).Pos := fun z hz => hpos z (List.mem_cons_of_mem _ hz)
    unfold sortByKey
    match hs : sortByKey f xs with
    | [] =>
      have hxnil : xs = [] := by
        have := (sortByKey_perm f xs).length_eq
        rw [hs] at this
        exact List.length_eq_zero.mp this.symm
      subst hxnil
      rcases List.mem_cons.mp hy with rfl | hy'
      · unfold insertByKey; simp
      · cases hy'
    | h0 :: t0 =>
      have hmemh0 : h0 ∈ xs := (sortByKey_perm f xs).mem_iff.mp (by rw [hs]; simp)
      have hh0 : (f h0).Pos := hxs h0 hmemh0
      have hmin0 : ∀ z ∈ xs, (f h0).val ≤ (f z).val := by
        intro z hz
        have := ih hxs z hz
        rwa [hs] at this
      unfold insertByKey
      cases hb : (f x).ble (f h0)
      · simp only [cond_false]
        have h1 : f h0 < f x := (Fl.ble_false_iff (f x) (f h0)).mp hb
        have hlt : (f h0).val ≤ (f x).val := le_of_lt ((Fl.lt_iff_val hh0 hx).mp h1)
        rcases List.mem_cons.mp hy with rfl | hy'
        · simpa using hlt
        · simpa using hmin0 y hy'
      · simp only [cond_true]
        have hle : (f x).val ≤ (f h0).val :=
          (Fl.le_iff_val hx hh0).mp ((Fl.ble_iff (f x) (f h0)).mp hb)
        rcases List.mem_cons.mp hy with rfl | hy'
        · simp
        · simpa using le_trans hle (hmin0 y hy')

/-! ## Positivity of the GA cost model -/

theorem foldl_preserve {α β : Type} (P : β → Prop) (f : β → α → β)
    (h : ∀ b a, P b → P (f b a)) : ∀ (l : List α) (b : β), P b → P (l.foldl f b) := by
  intro l
  induction l with
  | nil => intro b hb; exact hb
  | cons x xs ih => intro b hb; exact ih _ (h b x hb)

theorem Graph.nodeD_pos {g : Graph} (hg : g.WF) (n : Nat) :
    (g.nodeD n).proc_delay.Pos ∧ (g.nodeD n).reliability.Pos := by
  unfold Graph.nodeD Graph.getNode
  cases hf : g.nodes.find? (fun p => p.1 == n) with
  | none => exact ⟨Int.one_pos, Int.one_pos⟩
  | some p =>
    have hmem := List.mem_of_find?_eq_some hf
    simpa using hg.1 p hmem

theorem Graph.findEdge_pos {g : Graph} {u v : Nat} {d : EdgeData} (hg : g.WF)
    (h : g.findEdge u v = some d) :
    d.bandwidth.Pos ∧ d.link_delay.Pos ∧ d.reliability.Pos := by
  unfold Graph.findEdge at h
  cases hf : g.edges.find?
      (fun e => (e.1 == u && e.2.1 == v) || (e.1 == v && e.2.1 == u)) with
  | none => rw [hf] at h; cases h
  | some e =>
    rw [hf] at h
    have hmem := List.mem_of_find?_eq_some hf
    have := hg.2 e hmem
    simp only [Option.map_some'] at h
    cases h
    exact this

theorem calculate_path_attributes_pos (negLog : Fl → Fl) (g : Graph)
    (hg : g.WF) (hnl : PosFun negLog) (path : List Nat) :
    (calculate_path_attributes negLog g path).total_delay.Pos ∧
      (calculate_path_attributes negLog g path).reliability_cost.Pos ∧
      (calculate_path_attributes negLog g path).resource_cost.Pos := by
  have hP : ∀ (acc : PathAttrs) (uv : Nat × Nat),
      (acc.total_delay.Pos ∧ acc.reliability_cost.Pos ∧ acc.resource_cost.Pos) →
      ((cpa_edge_step negLog g acc uv).total_delay.Pos ∧
        (cpa_edge_step negLog g acc uv).reliability_cost.Pos ∧
        (cpa_edge_step negLog g acc uv).resource_cost.Pos) := by
    intro acc uv hacc
    unfold cpa_edge_step
    cases he : g.findEdge uv.1 uv.2 with
    | none => exact hacc
    | some d =>
      obtain ⟨_, hld, hrel⟩ := Graph.findEdge_pos hg he
      exact ⟨Fl.Pos.add hacc.1 hld, Fl.Pos.add hacc.2.1 (hnl _),
        Fl.Pos.add hacc.2.2 (Fl.Pos.div _ Int.one_pos)⟩
  have heacc := foldl_preserve
    (fun (acc : PathAttrs) =>
      acc.total_delay.Pos ∧ acc.reliability_cost.Pos ∧ acc.resource_cost.Pos)
    (cpa_edge_step negLog g) hP (pairsOf path) ⟨0, 0, 0⟩
    ⟨Int.one_pos, Int.one_pos, Int.one_pos⟩
  have hdacc := foldl_preserve (fun (x : Fl) => x.Pos) (cpa_delay_step g)
    (fun b a hb => Fl.Pos.add hb (Graph.nodeD_pos hg a).1) (interiorOf path) _ heacc.1
  have hracc := foldl_preserve (fun (x : Fl) => x.Pos) (cpa_rel_step negLog g)
    (fun b a hb => Fl.Pos.add hb (hnl _)) path _ heacc.2.1
  exact ⟨hdacc, hracc, heacc.2.2⟩

theorem ga_fitness_pos (negLog : Fl → Fl) (g : Graph) (w : GaWeights)
    (hg : g.WF) (hnl : PosFun negLog) (hw : w.WF) (p : List Nat) :
    (ga_fitness negLog g w p).Pos := by
  obtain ⟨h1, h2, h3⟩ := calculate_path_attributes_pos negLog g hg hnl p
  exact Fl.Pos.add (Fl.Pos.add (Fl.Pos.mul hw.1 h1) (Fl.Pos.mul hw.2.1 h2))
    (Fl.Pos.mul hw.2.2 h3)

/-! ## Structure of one GA generation -/

theorem genetik_children_prefix (negLog : Fl → Fl) (g : Graph) (w : GaWeights)
    (pop : List (List Nat)) (N : Nat) :
    ∀ (fuel : Nat) (init : List (List Nat)) (r : Rng) (res : List (List Nat)) (r' : Rng),
      genetik_children negLog g w pop N fuel init r = .ok (res, r') →
      ∃ suf, res = init ++ suf := by
  intro fuel
  induction fuel with
  | zero =>
    intro init r res r' h
    unfold genetik_children at h
    cases h
    exact ⟨[], by simp⟩
  | succ n ih =>
    intro init r res r' h
    unfold genetik_children at h
    cases hb : decide (N ≤ init.length) with
    | true =>
      rw [hb] at h
      simp only [cond_true] at h
      cases h
      exact ⟨[], by simp⟩
    | false =>
      rw [hb] at h
      simp only [cond_false] at h
      cases h1 : turnuva_secimi negLog g w pop r with
      | error e => rw [h1] at h; cases h
      | ok p1 =>
        rw [h1] at h
        obtain ⟨q1, r1⟩ := p1
        cases h2 : turnuva_secimi negLog g w pop r1 with
        | error e => simp only [h2] at h; cases h
        | ok p2 =>
          simp only [h2] at h
          obtain ⟨q2, r2⟩ := p2
          simp only [] at h
          obtain ⟨suf, hsuf⟩ := ih _ _ _ _ h
          exact ⟨_, by rw [hsuf, List.append_assoc]⟩

theorem Fl.zero_pos : (0 : Fl).Pos := Int.one_pos

theorem Fl.one_pos : (1 : Fl).Pos := Int.one_pos

theorem Fl.val_zero : (0 : Fl).val = 0 := by
  show Fl.val ⟨0, 1⟩ = 0
  unfold Fl.val
  norm_num

theorem Fl.val_one : (1 : Fl).val = 1 := by
  show Fl.val ⟨1, 1⟩ = 1
  unfold Fl.val
  norm_num

/-- Claim C8: in every generation step of the genetic solver, the minimum
fitness of the population produced by `genetik_algoritması` is no larger
than the minimum fitness of the population it started from, because the
top-`elite` individuals of the fitness-sorted population are carried
unchanged into the next generation. -/
theorem c8_ga_elitism (negLog : Fl → Fl) (g : Graph) (w : GaWeights) (r : Rng)
    (pop pop' : List (List Nat)) (hg : g.WF) (hnl : PosFun negLog) (hw : w.WF)
    (hne : pop ≠ []) (h : gaPopOf (genetik_algoritmasi negLog g w pop r) = some pop') :
    (minFitness negLog g w pop').val ≤ (minFitness negLog g w pop).val := by
  unfold gaPopOf at h
  cases hga : genetik_algoritmasi negLog g w pop r with
  | error e => rw [hga] at h; cases h
  | ok pr =>
    rw [hga] at h
    simp only [Option.some.injEq] at h
    subst h
    obtain ⟨res, rend⟩ := pr
    unfold genetik_algoritmasi at hga
    obtain ⟨suf, hsuf⟩ := genetik_children_prefix negLog g w pop 50 50 _ r res rend hga
    have hsort := sortByKey_ne_nil (ga_fitness negLog g w) pop hne
    match hS : sortByKey (ga_fitness negLog g w) pop with
    | [] => exact absurd hS hsort
    | h0 :: t0 =>
      rw [hS] at hsuf
      have hh0mem : h0 ∈ res := by
        rw [hsuf]
        simp [List.take]
      have hposall : ∀ x ∈ res, (ga_fitness negLog g w x).Pos :=
        fun x _ => ga_fitness_pos negLog g w hg hnl hw x
      have hposall2 : ∀ x ∈ pop, (ga_fitness negLog g w x).Pos :=
        fun x _ => ga_fitness_pos negLog g w hg hnl hw x
      have h1 : (ga_fitness negLog g w
          (pyMinBy (ga_fitness negLog g w) [] res)).val ≤ (ga_fitness negLog g w h0).val :=
        pyMinBy_le (ga_fitness negLog g w) [] res hposall h0 hh0mem
      have hmmem : pyMinBy (ga_fitness negLog g w) [] pop ∈ pop :=
        pyMinBy_mem (ga_fitness negLog g w) [] pop hne
      have h2 : (ga_fitness negLog g w h0).val ≤
          (ga_fitness negLog g w (pyMinBy (ga_fitness negLog g w) [] pop)).val := by
        have := sortByKey_head_min (ga_fitness negLog g w) h0 pop hposall2
          (pyMinBy (ga_fitness negLog g w) [] pop) hmmem
        rwa [hS] at this
      exact le_trans h1 h2

/-- Witness for C8 at a concrete generation step on `G7`. -/
theorem c8_ga_elitism_witness :
    (minFitness negLogStub G7 gaW100 c8popResult).val ≤
      (minFitness negLogStub G7 gaW100 c8pop).val :=
  c8_ga_elitism negLogStub G7 gaW100 oracle500 c8pop c8popResult (by decide)
    (fun _ => Int.one_pos) (by decide) (by decide) (by decide)

/-- Claim C3 (counterexample): the dispatcher maps the all-zero weight
triple to the normalized triple (0, 0, 0) — the delay weight used
afterwards is 0, not the claimed fallback 1. -/
theorem c3_counterexample :
    (normalizeWeights 0 0 0).1.val = 0 ∧ ¬ (normalizeWeights 0 0 0).1.val = 1 ∧
      (normalizeWeights 0 0 0).2.1.val = 0 ∧ (normalizeWeights 0 0 0).2.2.val = 0 := by
  have h : normalizeWeights 0 0 0 = (⟨0, 1⟩, ⟨0, 1⟩, ⟨0, 1⟩) := by decide
  rw [h]
  unfold Fl.val
  norm_num

/-- Claim C3 (amended): a weight triple summing to 0 only has its division
guarded (total replaced by 1) and passes through with unchanged values —
in particular (0,0,0) stays (0,0,0); for every nonnegative triple with a
positive sum the normalized triple sums to 1 and the relative order of the
components is preserved. -/
theorem c3_amended (w1 w2 w3 : Fl) (h1 : w1.Pos) (h2 : w2.Pos) (h3 : w3.Pos) :
    ((w1 + w2 + w3).val = 0 →
      (normalizeWeights w1 w2 w3).1.val = w1.val ∧
        (normalizeWeights w1 w2 w3).2.1.val = w2.val ∧
        (normalizeWeights w1 w2 w3).2.2.val = w3.val) ∧
    (0 < (w1 + w2 + w3).val →
      (normalizeWeights w1 w2 w3).1.val + (normalizeWeights w1 w2 w3).2.1.val +
          (normalizeWeights w1 w2 w3).2.2.val = 1 ∧
        ((w1.val ≤ w2.val ↔
          (normalizeWeights w1 w2 w3).1.val ≤ (normalizeWeights w1 w2 w3).2.1.val) ∧
         (w2.val ≤ w3.val ↔
          (normalizeWeights w1 w2 w3).2.1.val ≤ (normalizeWeights w1 w2 w3).2.2.val) ∧
         (w1.val ≤ w3.val ↔
          (normalizeWeights w1 w2 w3).1.val ≤ (normalizeWeights w1 w2 w3).2.2.val))) := by
  have hS : (w1 + w2 + w3).Pos := Fl.Pos.add (Fl.Pos.add h1 h2) h3
  have hSval : (w1 + w2 + w3).val = w1.val + w2.val + w3.val := by
    rw [Fl.val_add (Fl.Pos.add h1 h2) h3, Fl.val_add h1 h2]
  constructor
  · intro hz
    have hbeq : (w1 + w2 + w3).beq 0 = true :=
      (Fl.beq_iff_val hS Fl.zero_pos).mpr (by rw [Fl.val_zero]; exact hz)
    unfold normalizeWeights
    simp only [hbeq, cond_true]
    exact ⟨by rw [Fl.val_div h1 Fl.one_pos, Fl.val_one, div_one],
      by rw [Fl.val_div h2 Fl.one_pos, Fl.val_one, div_one],
      by rw [Fl.val_div h3 Fl.one_pos, Fl.val_one, div_one]⟩
  · intro hpos
    have hne0 : ¬ (w1 + w2 + w3).val = (0 : Fl).val := by
      rw [Fl.val_zero]
      exact ne_of_gt hpos
    have hbeq : (w1 + w2 + w3).beq 0 = false := by
      cases hb : (w1 + w2 + w3).beq 0
      · rfl
      · exact absurd ((Fl.beq_iff_val hS Fl.zero_pos).mp hb) hne0
    unfold normalizeWeights
    simp only [hbeq, cond_false]
    rw [Fl.val_div h1 hS, Fl.val_div h2 hS, Fl.val_div h3 hS]
    refine ⟨?_, ?_, ?_, ?_⟩
    · rw [div_add_div_same, div_add_div_same, ← hSval, div_self (ne_of_gt hpos)]
    · exact (div_le_div_iff_of_pos_right hpos).symm
    · exact (div_le_div_iff_of_pos_right hpos).symm
    · exact (div_le_div_iff_of_pos_right hpos).symm

/-- Witness for C3 at the concrete triple (0.5, 0.3, 0.2) and at the
all-zero triple. -/
theorem c3_amended_witness :
    ((0.5 : Fl) + 0.3 + 0.2).val = 0 ∨
      (normalizeWeights (0.5 : Fl) (0.3 : Fl) (0.2 : Fl)).1.val +
          (normalizeWeights (0.5 : Fl) (0.3 : Fl) (0.2 : Fl)).2.1.val +
          (normalizeWeights (0.5 : Fl) (0.3 : Fl) (0.2 : Fl)).2.2.val = 1 :=
  Or.inr ((c3_amended (0.5 : Fl) (0.3 : Fl) (0.2 : Fl) (by decide) (by decide)
    (by decide)).2 (by
      rw [show ((0.5 : Fl) + 0.3 + 0.2) = ⟨1000, 1000⟩ from by decide]
      unfold Fl.val
      norm_num)).1

/-! ## Infeasibility propagation in the SA and PSO cost models (C5) -/

theorem sa_fold_none_absorb (negLog : Fl → Fl) (fg : DiGraph) :
    ∀ prs : List (Nat × Nat), prs.foldl (sa_edge_step negLog fg) none = none := by
  intro prs
  induction prs with
  | nil => rfl
  | cons uv rest ih => simpa [sa_edge_step] using ih

theorem hasEdge_false_findEdge {fg : DiGraph} {u v : Nat} (h : fg.hasEdge u v = false) :
    fg.findEdge u v = none := by
  unfold DiGraph.hasEdge at h
  exact Option.not_isSome_iff_eq_none.mp (by simp [h])

theorem sa_fold_none_of_missing (negLog : Fl → Fl) (fg : DiGraph) :
    ∀ (prs : List (Nat × Nat)) (acc : Option (Fl × Fl × Fl × Fl)),
      prs.any (fun uv => !(fg.hasEdge uv.1 uv.2)) = true →
      prs.foldl (sa_edge_step negLog fg) acc = none := by
  intro prs
  induction prs with
  | nil => intro acc h; cases h
  | cons uv rest ih =>
    intro acc h
    rcases List.any_eq_true.mp h with ⟨x, hx, hmiss⟩
    rcases List.mem_cons.mp hx with rfl | hxrest
    · have hnone : fg.findEdge x.1 x.2 = none :=
        hasEdge_false_findEdge (by simpa using hmiss)
      cases acc with
      | none => exact sa_fold_none_absorb negLog fg _
      | some a =>
        obtain ⟨td, rc, res, rp⟩ := a
        simp only [List.foldl_cons]
        have hstep : sa_edge_step negLog fg (some (td, rc, res, rp)) x = none := by
          unfold sa_edge_step
          rw [hnone]
        rw [hstep]
        exact sa_fold_none_absorb negLog fg _
    · simp only [List.foldl_cons]
      exact ih _ (List.any_eq_true.mpr ⟨x, hxrest, hmiss⟩)

theorem sa_cost_none_of_missing (negLog : Fl → Fl) (fg : DiGraph) (w : SaWeights)
    (p : List Nat) (h : (pairsOf p).any (fun uv => !(fg.hasEdge uv.1 uv.2)) = true) :
    sa_calculate_total_cost negLog fg w p = none := by
  unfold sa_calculate_total_cost
  cases hl : decide (p.length < 2)
  · simp only [hl, cond_false]
    rw [sa_fold_none_of_missing negLog fg (pairsOf p) _ h]
  · simp [hl]

theorem hasEdgeU_false_findEdge {g : Graph} {u v : Nat} (h : g.hasEdge u v = false) :
    g.findEdge u v = none := by
  unfold Graph.hasEdge at h
  exact Option.not_isSome_iff_eq_none.mp (by simp [h])

theorem pso_fitness_edges_none (negLog : Fl → Fl) (g : Graph) :
    ∀ (prs : List (Nat × Nat)) (i : Nat) (st : Fl × Fl × Fl × Fl),
      prs.any (fun uv => !(g.hasEdge uv.1 uv.2)) = true →
      pso_fitness_edges negLog g prs i st = none := by
  intro prs
  induction prs with
  | nil => intro i st h; cases h
  | cons uv rest ih =>
    intro i st h
    obtain ⟨u, v⟩ := uv
    obtain ⟨td, rc, res, rp⟩ := st
    rcases List.any_eq_true.mp h with ⟨x, hx, hmiss⟩
    rcases List.mem_cons.mp hx with rfl | hxrest
    · have hnone : g.findEdge u v = none :=
        hasEdgeU_false_findEdge (by simpa using hmiss)
      unfold pso_fitness_edges
      rw [hnone]
    · unfold pso_fitness_edges
      cases he : g.findEdge u v with
      | none => rfl
      | some d => exact ih _ _ (List.any_eq_true.mpr ⟨x, hxrest, hmiss⟩)

theorem pso_fitness_none_of_missing (negLog : Fl → Fl) (g : Graph) (wq : Fl × Fl × Fl)
    (p : List Nat) (h : (pairsOf p).any (fun uv => !(g.hasEdge uv.1 uv.2)) = true) :
    pso_calculate_fitness negLog g wq p = none := by
  unfold pso_calculate_fitness
  rw [pso_fitness_edges_none negLog g (pairsOf p) 0 (0, 0, 0, 1) h]

/-- Claim C5 (amended): the simulated-annealing and PSO cost models return
an infeasible result (`inf` / `KeyError`, both modelled by `none`)
whenever some consecutive pair of the path is not connected by an edge of
their graph; the GA cost model (`metrics.calculate_path_attributes`) and
the Q-learning cost model instead *skip* missing edges and always produce
a finite breakdown. -/
theorem c5_amended (negLog : Fl → Fl) (fg : DiGraph) (g : Graph) (w : SaWeights)
    (wq : Fl × Fl × Fl) (p q : List Nat) :
    ((pairsOf p).any (fun uv => !(fg.hasEdge uv.1 uv.2)) = true →
      sa_calculate_total_cost negLog fg w p = none) ∧
    ((pairsOf q).any (fun uv => !(g.hasEdge uv.1 uv.2)) = true →
      pso_calculate_fitness negLog g wq q = none) :=
  ⟨sa_cost_none_of_missing negLog fg w p, pso_fitness_none_of_missing negLog g wq q⟩

/-- Witness for C5: the path `[0, 1]` over two isolated nodes. -/
theorem c5_amended_witness :
    sa_calculate_total_cost negLogStub Gpair.toDiGraph saW100 [0, 1] = none ∧
      pso_calculate_fitness negLogStub Gpair ((1 : Fl), (0 : Fl), (0 : Fl)) [0, 1] = none :=
  ⟨(c5_amended negLogStub Gpair.toDiGraph Gpair saW100 ((1 : Fl), (0 : Fl), (0 : Fl))
      [0, 1] [0, 1]).1 (by decide),
    (c5_amended negLogStub Gpair.toDiGraph Gpair saW100 ((1 : Fl), (0 : Fl), (0 : Fl))
      [0, 1] [0, 1]).2 (by decide)⟩

/-- Claim C5 (counterexample): the GA cost model
(`metrics.calculate_path_attributes`) does not return an infeasible
result for a path whose consecutive pair is not an edge — it skips the
missing edge and produces the finite breakdown (0, 0, 0); the Q-learning
cost model likewise returns the finite cost 0. -/
theorem c5_counterexample :
    Gpair.pathConnected [0, 1] = false ∧
      calculate_path_attributes negLogStub Gpair [0, 1] = ⟨0, 0, 0⟩ ∧
      calculate_path_cost negLogStub Gpair 1 1 1 [0, 1] = some 0 := by
  refine ⟨by decide, by decide, by decide⟩

/-- Claim C9: in the simulated-annealing acceptance step, a candidate of
strictly lower (finite) cost is always accepted, and a candidate of equal
cost is accepted with probability 1 — the Metropolis probability is
`exp(0) = 1` and every `random()` draw is < 1 — for every temperature
`T > 0`. -/
theorem c9_sa_acceptance (expfn : Fl → Fl) (cc nc T : Fl) (rng : Rng)
    (hcc : cc.Pos) (hnc : nc.Pos) (hT : 0 < T.val)
    (hexp : ∀ x, x.num = 0 → expfn x = 1) :
    (nc.val < cc.val → (sa_accept_step expfn (some cc) (some nc) T rng).1 = true) ∧
    (nc.val = cc.val → (sa_accept_step expfn (some cc) (some nc) T rng).1 = true) := by
  constructor
  · intro h
    have hlt : (nc - cc) < (0 : Fl) :=
      (Fl.lt_iff_val (Fl.Pos.sub hnc hcc) Fl.zero_pos).mpr
        (by rw [Fl.val_sub hnc hcc, Fl.val_zero]; linarith)
    have hblt : (nc - cc).blt 0 = true := (Fl.blt_iff _ _).mpr hlt
    unfold sa_accept_step
    simp only [hblt, cond_true]
  · intro h
    have heq : nc.num * cc.den = cc.num * nc.den := (Fl.equiv_iff_val hnc hcc).mpr h
    have hnum : (nc - cc).num = 0 := by
      show nc.num * cc.den + -cc.num * nc.den = 0
      have h2 : -cc.num * nc.den = -(cc.num * nc.den) := by ring
      rw [h2]
      linarith [heq]
    have hblt : (nc - cc).blt 0 = false := by
      unfold Fl.blt
      rw [decide_eq_false_iff_not]
      show ¬ (nc - cc).num * (0 : Fl).den < (0 : Fl).num * (nc - cc).den
      rw [hnum]
      show ¬ (0 : Int) * 1 < 0 * (nc - cc).den
      simp
    unfold sa_accept_step
    simp only [hblt, cond_false]
    unfold metropolisAccept
    simp only [hblt, cond_false]
    have harg : ((-(nc - cc)) / T).num = 0 := by
      show -(nc - cc).num * T.inv.num = 0
      rw [hnum]
      ring
    rw [hexp _ harg]
    unfold Rng.randFloat Rng.next Fl.blt
    simp only []
    rw [decide_eq_true_iff]
    show ((rng.stream rng.idx % 1000 : Nat) : Int) * (1 : Fl).den < (1 : Fl).num * 1000
    show ((rng.stream rng.idx % 1000 : Nat) : Int) * 1 < 1 * 1000
    have := Nat.mod_lt (rng.stream rng.idx) (by norm_num : 0 < 1000)
    omega

/-- Witness for C9 at costs 3 < 5 and 5 = 5, temperature 10. -/
theorem c9_sa_acceptance_witness :
    (sa_accept_step expOneStub (some 5) (some 3) 10 oracle0).1 = true ∧
      (sa_accept_step expOneStub (some 5) (some 5) 10 oracle0).1 = true := by
  have hT : (0 : ℚ) < (10 : Fl).val := by
    rw [show (10 : Fl) = ⟨10, 1⟩ from rfl]
    unfold Fl.val
    norm_num
  refine ⟨(c9_sa_acceptance expOneStub 5 3 10 oracle0 (by decide) (by decide) hT
      (fun x _ => rfl)).1 ?_,
    (c9_sa_acceptance expOneStub 5 5 10 oracle0 (by decide) (by decide) hT
      (fun x _ => rfl)).2 rfl⟩
  rw [show (3 : Fl) = ⟨3, 1⟩ from rfl, show (5 : Fl) = ⟨5, 1⟩ from rfl]
  unfold Fl.val
  norm_num

/-- Claim C7 (counterexample): the simulated-annealing run as invoked by
`calculate_route_with_sa` (`T0 = 300`, `T_final = 1`, `α_phase1 = 0.85`)
executes exactly 30 cooling steps, while the claimed single-coefficient
count `⌈log(T_final/T0)/log α⌉` — equivalently the least `n` with
`300 · 0.85ⁿ ≤ 1` — is 36, and 30 is outside 36 ± 1.  The run switches to
the faster coefficient `α_phase2 = 0.80` after 15 steps, which the
claimed formula ignores. -/
theorem c7_counterexample :
    ((sa_run negLogStub expOneStub G2ok.toDiGraph 0 1 100 saW100 saWrapperParams
        oracle0).1.map (fun s => s.cooling_step)) = some 30 ∧
      claimedCoolingSteps = 36 ∧
      ¬ (claimedCoolingSteps - 1 ≤ 30 ∧ 30 ≤ claimedCoolingSteps + 1) :=
  ⟨by decide, by decide, by decide⟩

/-- Claim C7 (amended): with the two-phase cooling schedule the wrapper
actually runs (`α = 0.85` for the first 15 cooling steps, `α = 0.80`
afterwards), the number of cooling steps executed equals the closed-form
two-phase count, which is 30. -/
theorem c7_amended :
    ((sa_run negLogStub expOneStub G2ok.toDiGraph 0 1 100 saW100 saWrapperParams
        oracle0).1.map (fun s => s.cooling_step)) = some actualCoolingSteps ∧
      actualCoolingSteps = 30 :=
  ⟨by decide, by decide⟩

/-- Claim C6 (counterexample): the dispatcher is not read-only on the
caller's graph: `calculate_path` overwrites the `dynamic_weight`
attribute of every edge of `self.G` before dispatching, so the graph
after a Dijkstra dispatch differs from the graph supplied. -/
theorem c6_counterexample :
    (topo_calculate_path negLogStub expOneStub (some G2ok) 0 1 1 0 0 Alg.dijkstra 100
        oracle0).2.1 ≠ some G2ok := by decide

/-- Claim C6 (amended): for every graph, weight triple, algorithm and
demand, the dispatcher's only mutation of the caller's graph is the
`dynamic_weight` recomputation: the resulting graph is exactly
`recomputeDynamicWeights` of the input, which keeps the node list and
every edge attribute other than `dynamic_weight` unchanged. -/
theorem c6_amended (negLog expfn : Fl → Fl) (g : Graph) (s t : Nat)
    (wD wR wRes dv : Fl) (alg : Alg) (r : Rng) :
    (topo_calculate_path negLog expfn (some g) s t wD wR wRes alg dv r).2.1 =
      some (recomputeDynamicWeights negLog g (normalizeWeights wD wR wRes).1
        (normalizeWeights wD wR wRes).2.1 (normalizeWeights wD wR wRes).2.2) ∧
    (recomputeDynamicWeights negLog g (normalizeWeights wD wR wRes).1
        (normalizeWeights wD wR wRes).2.1 (normalizeWeights wD wR wRes).2.2).nodes =
      g.nodes ∧
    List.Forall₂ (fun (e e' : Nat × Nat × EdgeData) =>
        e'.1 = e.1 ∧ e'.2.1 = e.2.1 ∧ sameButDynamic e.2.2 e'.2.2)
      g.edges
      (recomputeDynamicWeights negLog g (normalizeWeights wD wR wRes).1
        (normalizeWeights wD wR wRes).2.1 (normalizeWeights wD wR wRes).2.2).edges := by
  refine ⟨?_, rfl, ?_⟩
  · cases alg <;>
      simp only [topo_calculate_path, Bool.cond_eq_ite] <;>
      split <;> (try split) <;> (try split) <;> rfl
  · show List.Forall₂ _ g.edges (g.edges.map _)
    rw [List.forall₂_map_right_iff]
    rw [List.forall₂_same]
    intro e _
    obtain ⟨u, v, d⟩ := e
    exact ⟨rfl, rfl, rfl, rfl, rfl, rfl, rfl, rfl⟩

/-- Claim C10: the dispatcher never lets a solver failure escape: when the
graph is absent it returns the null result, and when the genetic solver
raises (the one solver in this embedding whose run is fallible, modelling
the `raise ValueError` paths of `ga.py`) the exception is caught at the
dispatch boundary and surfaced as a null result. -/
theorem c10_exception_containment :
    (∀ (negLog expfn : Fl → Fl) (s t : Nat) (wD wR wRes dv : Fl) (alg : Alg) (r : Rng),
      (topo_calculate_path negLog expfn none s t wD wR wRes alg dv r).1 = none ∧
      (topo_calculate_path negLog expfn none s t wD wR wRes alg dv r).2.1 = none) ∧
    (∀ (negLog expfn : Fl → Fl) (g : Graph) (s t : Nat) (wD wR wRes dv : Fl) (r : Rng)
      (e : GaError),
      gaErrOf (genetik_calistir negLog
          (recomputeDynamicWeights negLog g (normalizeWeights wD wR wRes).1
            (normalizeWeights wD wR wRes).2.1 (normalizeWeights wD wR wRes).2.2)
          s t dv ⟨(normalizeWeights wD wR wRes).1, (normalizeWeights wD wR wRes).2.1,
            (normalizeWeights wD wR wRes).2.2⟩ r) = some e →
        (topo_calculate_path negLog expfn (some g) s t wD wR wRes Alg.genetik dv r).1 =
          none) := by
  constructor
  · exact fun _ _ _ _ _ _ _ _ _ _ => ⟨rfl, rfl⟩
  · intro negLog expfn g s t wD wR wRes dv r e he
    simp only [topo_calculate_path]
    cases hga : genetik_calistir negLog
        (recomputeDynamicWeights negLog g (normalizeWeights wD wR wRes).1
          (normalizeWeights wD wR wRes).2.1 (normalizeWeights wD wR wRes).2.2)
        s t dv ⟨(normalizeWeights wD wR wRes).1, (normalizeWeights wD wR wRes).2.1,
          (normalizeWeights wD wR wRes).2.2⟩ r with
    | error e2 => rfl
    | ok p =>
      rw [hga] at he
      simp [gaErrOf] at he

/-- Witness for C10: a concrete graph (a single edge of bandwidth 50,
demand 100) on which the genetic solver raises, and the dispatcher
returns the null result. -/
theorem c10_exception_containment_witness :
    (topo_calculate_path negLogStub expOneStub (some G50) 0 1 1 0 0 Alg.genetik 100
        oracle0).1 = none :=
  c10_exception_containment.2 negLogStub expOneStub G50 0 1 1 0 0 100 oracle0
    GaError.noPopulation (by decide)

theorem dijkstraLoop_no_succ (succw : Nat → List (Nat × Fl)) (t s : Nat)
    (h : ∀ u, succw u = []) (hst : s ≠ t) (fuel : Nat) :
    dijkstraLoop succw t (fuel + 2) [((0 : Fl), [s])] [] = none := by
  have hbe : (s == t) = false := by simpa using hst
  show dijkstraLoop succw t (fuel + 1 + 1) [((0 : Fl), [s])] [] = none
  simp [dijkstraLoop, extractMinFr, hbe, h]

theorem Graph.shortestPathHops_no_edges {g : Graph} (hg : g.edges = []) {s t : Nat}
    (hst : s ≠ t) : g.shortestPathHops s t = none := by
  have hsucc : ∀ u, ((g.neighbors u).map (fun n => (n, (1 : Fl)))) = [] := by
    intro u
    unfold Graph.neighbors
    rw [hg]
    rfl
  exact dijkstraLoop_no_succ _ t s hsucc hst (g.nodes.length + 2 * g.edges.length)

theorem DiGraph.shortestPathHops_no_dedges {dg : DiGraph} (hg : dg.dedges = []) {s t : Nat}
    (hst : s ≠ t) : dg.shortestPathHops s t = none := by
  have hsucc : ∀ u, ((dg.succ u).map (fun n => (n, (1 : Fl)))) = [] := by
    intro u
    unfold DiGraph.succ
    rw [hg]
    rfl
  exact dijkstraLoop_no_succ _ t s hsucc hst (dg.nodes.length + dg.dedges.length)

theorem filter_bw_nil (l : List (Nat × Nat × EdgeData)) (dv : Fl)
    (h : ∀ e ∈ l, e.2.2.bandwidth.blt dv = true) :
    l.filter (fun e => !(e.2.2.bandwidth.blt dv)) = [] := by
  rw [List.filter_eq_nil_iff]
  intro e he
  simp [h e he]

theorem rastgele_yol_of_no_edges {g : Graph} (hg : g.edges = []) {s d : Nat} (hsd : s ≠ d)
    (r : Rng) : rastgele_yol g s d r = (none, r) := by
  have hbe : (s == d) = false := by simpa using hsd
  have hnb : g.neighbors s = [] := by
    unfold Graph.neighbors
    rw [hg]
    rfl
  show rastgele_yol_loop g d 30 10000 [(s, [s])] r = (none, r)
  rw [show (10000 : Nat) = 9998 + 1 + 1 from rfl]
  simp [rastgele_yol_loop, hbe, hnb, Rng.shuffle, Rng.shuffleAux]

theorem baslangic_loop_of_failing {g : Graph} {s d : Nat}
    (h : ∀ r, rastgele_yol g s d r = (none, r)) (N : Nat) :
    ∀ (att : Nat) (r : Rng), baslangic_loop g s d N att [] r = ([], r) := by
  intro att
  induction att with
  | zero => intro r; rfl
  | succ att ih =>
    intro r
    simp only [baslangic_loop, List.length_nil, h]
    cases hN : decide (N ≤ 0) <;> simp [hN, ih]

theorem baslangic_popilasyonu_no_edges {g : Graph} {s d : Nat} {bw : Fl}
    (hg : (ga_filter g bw).edges = []) (hsd : s ≠ d) (N : Nat) (r : Rng) :
    baslangic_popilasyonu g s d bw N r = .error .noPopulation := by
  unfold baslangic_popilasyonu
  simp only []
  rw [baslangic_loop_of_failing (fun r => rastgele_yol_of_no_edges hg hsd r) N (N * 20) r]
  rfl

theorem genetik_calistir_no_edges (negLog : Fl → Fl) {g : Graph} {s d : Nat} {bw : Fl}
    (hbw : ∀ e ∈ g.edges, e.2.2.bandwidth.blt bw = true) (hsd : s ≠ d) (w : GaWeights)
    (r : Rng) : genetik_calistir negLog g s d bw w r = .error .noPopulation := by
  have hg : (ga_filter g bw).edges = [] := filter_bw_nil g.edges bw hbw
  unfold genetik_calistir
  rw [baslangic_popilasyonu_no_edges hg hsd 50 r]

theorem solve_demand_infeasible (negLog : Fl → Fl) {g : Graph} {s t : Nat} {dv : Fl}
    (hbw : ∀ e ∈ g.edges, e.2.2.bandwidth.blt dv = true) (hst : s ≠ t)
    (wq : Fl × Fl × Fl) (r : Rng) :
    (solve_demand negLog g s t dv wq r).1 = (none, none) := by
  unfold solve_demand
  cases hge : g.edges.isEmpty with
  | true => rfl
  | false =>
    have htmp : (⟨g.nodes, pso_available_edges g dv⟩ : Graph).edges = [] :=
      filter_bw_nil g.edges dv hbw
    have hnp : (⟨g.nodes, pso_available_edges g dv⟩ : Graph).hasPath s t = false := by
      unfold Graph.hasPath
      rw [Graph.shortestPathHops_no_edges htmp hst]
      rfl
    simp [hnp]

theorem sa_filter_toDiGraph_nil {g : Graph} {dv : Fl}
    (hbw : ∀ e ∈ g.edges, e.2.2.bandwidth.blt dv = true)
    (hcap : ∀ e ∈ g.edges, e.2.2.capacity = none) :
    (sa_filter_graph g.toDiGraph dv).dedges = [] := by
  show (g.toDiGraph.dedges.filter _) = []
  rw [List.filter_eq_nil_iff]
  intro e he
  simp only [Graph.toDiGraph, List.mem_flatMap, List.mem_cons,
    List.mem_singleton, List.not_mem_nil, or_false] at he
  obtain ⟨e0, he0, hmem⟩ := he
  have hb := hbw e0 he0
  have hc := hcap e0 he0
  rcases hmem with rfl | rfl <;> simp [hc, hb]

theorem calculate_route_with_sa_infeasible (negLog expfn : Fl → Fl) {g : Graph}
    {s t : Nat} {dv : Fl} (hbw : ∀ e ∈ g.edges, e.2.2.bandwidth.blt dv = true)
    (hcap : ∀ e ∈ g.edges, e.2.2.capacity = none) (hst : s ≠ t) (w : SaWeights) (r : Rng) :
    (calculate_route_with_sa negLog expfn g s t dv w r).1 = none := by
  unfold calculate_route_with_sa sa_run
  simp only []
  rw [DiGraph.shortestPathHops_no_dedges (sa_filter_toDiGraph_nil hbw hcap) hst]

/-- Claim C2 (counterexample): on the cited scenario — one edge of
bandwidth 50 between source and target, demand 100 — the Q-learning solver
does *not* report failure: it returns the path `[0, 1]` even though its
only edge violates the bandwidth demand (the −500 reward penalty does not
prevent the best walked path from being returned). -/
theorem c2_counterexample :
    ((qlearning_calculate_path negLogStub expOneStub G50 0 1 1 0 0 100 8 (0.1 : Fl)
        (0.9 : Fl) (0.9 : Fl) (0.05 : Fl) oracle500).1.map (fun res => res.path)) =
      some [0, 1] ∧
    ((G50.findEdge 0 1).map (fun d => d.bandwidth.blt 100)) = some true :=
  ⟨by decide, by decide⟩

/-- Claim C2 (amended): on every graph all of whose edges have bandwidth
strictly below the demand (and no separate capacity attribute), with
distinct source and target, the genetic, PSO and simulated-annealing
solvers all report failure; the Q-learning solver is the exception (see
the counterexample). -/
theorem c2_amended (negLog expfn : Fl → Fl) (g : Graph) (s t : Nat) (dv : Fl)
    (hbw : ∀ e ∈ g.edges, e.2.2.bandwidth.blt dv = true)
    (hcap : ∀ e ∈ g.edges, e.2.2.capacity = none) (hst : s ≠ t)
    (w : GaWeights) (wq : Fl × Fl × Fl) (ws : SaWeights) (r : Rng) :
    genetik_calistir negLog g s t dv w r = .error .noPopulation ∧
    (solve_demand negLog g s t dv wq r).1 = (none, none) ∧
    (calculate_route_with_sa negLog expfn g s t dv ws r).1 = none :=
  ⟨genetik_calistir_no_edges negLog hbw hst w r,
   solve_demand_infeasible negLog hbw hst wq r,
   calculate_route_with_sa_infeasible negLog expfn hbw hcap hst ws r⟩

/-- Witness for C2 (amended) at the cited scenario: the bandwidth-50
single-edge graph with demand 100. -/
theorem c2_amended_witness :
    genetik_calistir negLogStub G50 0 1 100 gaW100 oracle0 = .error .noPopulation ∧
    (solve_demand negLogStub G50 0 1 100 (1, 0, 0) oracle0).1 = (none, none) ∧
    (calculate_route_with_sa negLogStub expOneStub G50 0 1 100 saW100 oracle0).1 = none :=
  c2_amended negLogStub expOneStub G50 0 1 100 (by decide) (by decide) (by decide)
    gaW100 (1, 0, 0) saW100 oracle0

theorem Fl.le_of_lt {a b : Fl} (h : a < b) : a ≤ b := Int.le_of_lt h

theorem Fl.pymax_eq_left {a b : Fl} (h : b ≤ a) : a.pymax b = a := by
  unfold Fl.pymax
  rw [(Fl.blt_false_iff _ _).mpr h]
  rfl

theorem relTermQ_eq (negLog : Fl → Fl) {r : Fl} (h : (⟨1, 1000000⟩ : Fl) ≤ r) :
    relTermQ negLog r = (negLog r).val := by
  unfold relTermQ
  rw [Fl.pymax_eq_left h]

theorem Graph.findEdge_rel_big {g : Graph} {u v : Nat} {d : EdgeData}
    (hre : ∀ e ∈ g.edges, (⟨1, 1000000⟩ : Fl) < e.2.2.reliability)
    (h : g.findEdge u v = some d) : (⟨1, 1000000⟩ : Fl) < d.reliability := by
  unfold Graph.findEdge at h
  cases hf : g.edges.find?
      (fun e => (e.1 == u && e.2.1 == v) || (e.1 == v && e.2.1 == u)) with
  | none => rw [hf] at h; cases h
  | some e =>
    rw [hf] at h
    have hmem := List.mem_of_find?_eq_some hf
    simp only [Option.map_some'] at h
    cases h
    exact hre e hmem

theorem DiGraph.findEdge_mem {fg : DiGraph} {u v : Nat} {d : EdgeData}
    (h : fg.findEdge u v = some d) : ∃ e ∈ fg.dedges, e.2.2 = d := by
  unfold DiGraph.findEdge at h
  cases hf : fg.dedges.find? (fun e => e.1 == u && e.2.1 == v) with
  | none => rw [hf] at h; cases h
  | some e =>
    rw [hf] at h
    have hmem := List.mem_of_find?_eq_some hf
    simp only [Option.map_some'] at h
    cases h
    exact ⟨e, hmem, rfl⟩

theorem Graph.getNode_mem {g : Graph} {n : Nat} {nd : NodeData}
    (h : g.getNode n = some nd) : ∃ p ∈ g.nodes, p.2 = nd := by
  unfold Graph.getNode at h
  cases hf : g.nodes.find? (fun p => p.1 == n) with
  | none => rw [hf] at h; cases h
  | some p =>
    rw [hf] at h
    have hmem := List.mem_of_find?_eq_some hf
    simp only [Option.map_some'] at h
    cases h
    exact ⟨p, hmem, rfl⟩

theorem Graph.nodeD_rel_big {g : Graph}
    (hrn : ∀ p ∈ g.nodes, (⟨1, 1000000⟩ : Fl) < p.2.reliability) (n : Nat) :
    (⟨1, 1000000⟩ : Fl) < (g.nodeD n).reliability := by
  unfold Graph.nodeD Graph.getNode
  cases hf : g.nodes.find? (fun p => p.1 == n) with
  | none => decide
  | some p =>
    have hmem := List.mem_of_find?_eq_some hf
    simpa using hrn p hmem

theorem DiGraph.nodeD_nrc_none {fg : DiGraph}
    (hcn : ∀ p ∈ fg.nodes, p.2.node_rel_cost = none) (n : Nat) :
    (fg.nodeD n).node_rel_cost = none := by
  unfold DiGraph.nodeD DiGraph.getNode
  cases hf : fg.nodes.find? (fun p => p.1 == n) with
  | none => rfl
  | some p =>
    have hmem := List.mem_of_find?_eq_some hf
    simpa using hcn p hmem

theorem pairsOf_map_snd : ∀ (p : List Nat),
    (pairsOf p).map (fun uv => uv.2) = p.tail
  | [] => rfl
  | [_] => rfl
  | a :: b :: rest => by
    have ih := pairsOf_map_snd (b :: rest)
    simp only [pairsOf, List.map_cons, ih]
    rfl

theorem cpa_edge_fold_rc (negLog : Fl → Fl) (g : Graph) (hPos : PosFun negLog)
    (hre : ∀ e ∈ g.edges, (⟨1, 1000000⟩ : Fl) < e.2.2.reliability)
    (l : List (Nat × Nat)) :
    ∀ (acc : PathAttrs), acc.reliability_cost.Pos →
      (l.foldl (cpa_edge_step negLog g) acc).reliability_cost.Pos ∧
      ((l.foldl (cpa_edge_step negLog g) acc).reliability_cost).val =
        acc.reliability_cost.val +
          (l.map (fun uv => match g.findEdge uv.1 uv.2 with
            | none => (0 : ℚ)
            | some d => relTermQ negLog d.reliability)).sum := by
  induction l with
  | nil => intro acc h; exact ⟨h, by simp⟩
  | cons uv rest ih =>
    intro acc h
    simp only [List.foldl_cons, List.map_cons, List.sum_cons]
    cases he : g.findEdge uv.1 uv.2 with
    | none =>
      have hstep : cpa_edge_step negLog g acc uv = acc := by
        unfold cpa_edge_step
        rw [he]
      rw [hstep]
      obtain ⟨h1, h2⟩ := ih acc h
      refine ⟨h1, ?_⟩
      rw [h2]
      simp only []
      ring
    | some d =>
      have hrel := Graph.findEdge_rel_big hre he
      have hble : d.reliability.ble ⟨1, 1000000⟩ = false :=
        (Fl.ble_false_iff _ _).mpr hrel
      have hstep : (cpa_edge_step negLog g acc uv).reliability_cost =
          acc.reliability_cost + negLog d.reliability := by
        unfold cpa_edge_step
        rw [he]
        simp [hble]
      have hpos' : (cpa_edge_step negLog g acc uv).reliability_cost.Pos := by
        rw [hstep]; exact Fl.Pos.add h (hPos _)
      obtain ⟨h1, h2⟩ := ih (cpa_edge_step negLog g acc uv) hpos'
      refine ⟨h1, ?_⟩
      rw [h2, hstep, Fl.val_add h (hPos _)]
      simp only []
      rw [relTermQ_eq negLog (Fl.le_of_lt hrel)]
      ring

theorem cpa_rel_fold_rc (negLog : Fl → Fl) (g : Graph) (hPos : PosFun negLog)
    (hrn : ∀ p ∈ g.nodes, (⟨1, 1000000⟩ : Fl) < p.2.reliability)
    (ns : List Nat) :
    ∀ (acc : Fl), acc.Pos →
      (ns.foldl (cpa_rel_step negLog g) acc).Pos ∧
      (ns.foldl (cpa_rel_step negLog g) acc).val =
        acc.val + specNodeRelSumQ negLog g ns := by
  induction ns with
  | nil => intro acc h; exact ⟨h, by simp [specNodeRelSumQ]⟩
  | cons n rest ih =>
    intro acc h
    have hrel := Graph.nodeD_rel_big hrn n
    have hble : (g.nodeD n).reliability.ble ⟨1, 1000000⟩ = false :=
      (Fl.ble_false_iff _ _).mpr hrel
    have hstep : cpa_rel_step negLog g acc n = acc + negLog (g.nodeD n).reliability := by
      unfold cpa_rel_step
      simp [hble]
    simp only [List.foldl_cons, hstep]
    obtain ⟨h1, h2⟩ := ih (acc + negLog (g.nodeD n).reliability) (Fl.Pos.add h (hPos _))
    refine ⟨h1, ?_⟩
    rw [h2, Fl.val_add h (hPos _)]
    simp only [specNodeRelSumQ, List.map_cons, List.sum_cons,
      relTermQ_eq negLog (Fl.le_of_lt hrel)]
    ring

theorem pso_fitness_edges_rc_val (negLog : Fl → Fl) (g : Graph) (hPos : PosFun negLog)
    (l : List (Nat × Nat)) :
    ∀ (i : Nat) (st : Fl × Fl × Fl × Fl), st.2.1.Pos →
      (∀ uv ∈ l, g.hasEdge uv.1 uv.2 = true) →
      ∃ st', pso_fitness_edges negLog g l i st = some st' ∧ st'.2.1.Pos ∧
        st'.2.1.val = st.2.1.val +
          ((l.map (fun uv => match g.findEdge uv.1 uv.2 with
            | none => (0 : ℚ)
            | some d => relTermQ negLog d.reliability)).sum +
           specNodeRelSumQ negLog g (l.map (fun uv => uv.2))) := by
  induction l with
  | nil =>
    intro i st h _
    exact ⟨st, rfl, h, by simp [specNodeRelSumQ]⟩
  | cons uv rest ih =>
    intro i st h hconn
    obtain ⟨u, v⟩ := uv
    obtain ⟨td, rc, res, rp⟩ := st
    have hse : g.hasEdge u v = true := hconn (u, v) (List.mem_cons_self _ _)
    rw [Graph.hasEdge, Option.isSome_iff_exists] at hse
    obtain ⟨d, he⟩ := hse
    have hrest : ∀ uv ∈ rest, g.hasEdge uv.1 uv.2 = true :=
      fun uv hm => hconn uv (List.mem_cons_of_mem _ hm)
    have hstep : pso_fitness_edges negLog g ((u, v) :: rest) i (td, rc, res, rp) =
        pso_fitness_edges negLog g rest (i + 1)
          (bif i == 0 then td + d.link_delay else td + d.link_delay + (g.nodeD u).proc_delay,
           rc + negLog (d.reliability.pymax ⟨1, 1000000⟩) +
             negLog ((g.nodeD v).reliability.pymax ⟨1, 1000000⟩),
           res + 1000 / (d.bandwidth.pymax ⟨1, 1000000⟩),
           rp * (d.reliability * (g.nodeD v).reliability)) := by
      simp only [pso_fitness_edges, he]
    have hpos' : (rc + negLog (d.reliability.pymax ⟨1, 1000000⟩) +
        negLog ((g.nodeD v).reliability.pymax ⟨1, 1000000⟩)).Pos :=
      Fl.Pos.add (Fl.Pos.add h (hPos _)) (hPos _)
    obtain ⟨st', hrun, hp, hv⟩ := ih (i + 1)
      ((bif i == 0 then td + d.link_delay else td + d.link_delay + (g.nodeD u).proc_delay),
       rc + negLog (d.reliability.pymax ⟨1, 1000000⟩) +
         negLog ((g.nodeD v).reliability.pymax ⟨1, 1000000⟩),
       res + 1000 / (d.bandwidth.pymax ⟨1, 1000000⟩),
       rp * (d.reliability * (g.nodeD v).reliability)) hpos' hrest
    refine ⟨st', by rw [hstep]; exact hrun, hp, ?_⟩
    rw [hv]
    simp only []
    rw [Fl.val_add (Fl.Pos.add h (hPos _)) (hPos _), Fl.val_add h (hPos _)]
    simp only [List.map_cons, List.sum_cons, specNodeRelSumQ, he, relTermQ]
    ring

theorem sa_edge_fold_rc (negLog : Fl → Fl) (fg : DiGraph) (hPos : PosFun negLog)
    (hce : ∀ e ∈ fg.dedges, e.2.2.edge_rel_cost = none)
    (l : List (Nat × Nat)) :
    ∀ (st : Fl × Fl × Fl × Fl), st.2.1.Pos →
      (∀ uv ∈ l, fg.hasEdge uv.1 uv.2 = true) →
      ∃ st', l.foldl (sa_edge_step negLog fg) (some st) = some st' ∧ st'.2.1.Pos ∧
        st'.2.1.val = st.2.1.val +
          (l.map (fun uv => match fg.findEdge uv.1 uv.2 with
            | none => (0 : ℚ)
            | some d => relTermQ negLog d.reliability)).sum := by
  induction l with
  | nil => intro st h _; exact ⟨st, rfl, h, by simp⟩
  | cons uv rest ih =>
    intro st h hconn
    obtain ⟨td, rc, res, rp⟩ := st
    have hse : fg.hasEdge uv.1 uv.2 = true := hconn uv (List.mem_cons_self _ _)
    rw [DiGraph.hasEdge, Option.isSome_iff_exists] at hse
    obtain ⟨d, he⟩ := hse
    obtain ⟨e, hem, hed⟩ := DiGraph.findEdge_mem he
    have herc : d.edge_rel_cost = none := by rw [← hed]; exact hce e hem
    have hrest : ∀ uv ∈ rest, fg.hasEdge uv.1 uv.2 = true :=
      fun uv hm => hconn uv (List.mem_cons_of_mem _ hm)
    have hstep : sa_edge_step negLog fg (some (td, rc, res, rp)) uv =
        some (td + d.link_delay, rc + negLog (d.reliability.pymax ⟨1, 1000000⟩),
          (match d.edge_res_cost with
            | some c => res + c
            | none => res + 1000 / ((d.capacity.getD d.bandwidth).pymax ⟨1, 1000000⟩)),
          rp * d.reliability) := by
      simp only [sa_edge_step, he, herc]
    simp only [List.foldl_cons, List.map_cons, List.sum_cons, hstep]
    have hpos' : (rc + negLog (d.reliability.pymax ⟨1, 1000000⟩)).Pos :=
      Fl.Pos.add h (hPos _)
    obtain ⟨st', hrun, hp, hv⟩ := ih
      (td + d.link_delay, rc + negLog (d.reliability.pymax ⟨1, 1000000⟩),
       (match d.edge_res_cost with
         | some c => res + c
         | none => res + 1000 / ((d.capacity.getD d.bandwidth).pymax ⟨1, 1000000⟩)),
       rp * d.reliability) hpos' hrest
    refine ⟨st', hrun, hp, ?_⟩
    rw [hv]
    simp only []
    rw [Fl.val_add h (hPos _)]
    simp only [he, relTermQ]
    ring

theorem sa_node_fold_rc (negLog : Fl → Fl) (fg : DiGraph) (hPos : PosFun negLog)
    (hcn : ∀ p ∈ fg.nodes, p.2.node_rel_cost = none)
    (ns : List Nat) :
    ∀ (acc : Fl × Fl × Fl), acc.2.1.Pos →
      (ns.foldl (sa_node_step negLog fg) acc).2.1.Pos ∧
      (ns.foldl (sa_node_step negLog fg) acc).2.1.val =
        acc.2.1.val + specNodeRelSumDQ negLog fg ns := by
  induction ns with
  | nil => intro acc h; exact ⟨h, by simp [specNodeRelSumDQ]⟩
  | cons n rest ih =>
    intro acc h
    have hnone := DiGraph.nodeD_nrc_none hcn n
    have hstep : sa_node_step negLog fg acc n =
        (acc.1 + (fg.nodeD n).proc_delay,
         acc.2.1 + negLog ((fg.nodeD n).reliability.pymax ⟨1, 1000000⟩),
         acc.2.2 * (fg.nodeD n).reliability) := by
      simp only [sa_node_step, hnone]
    simp only [List.foldl_cons, hstep]
    obtain ⟨h1, h2⟩ := ih
      (acc.1 + (fg.nodeD n).proc_delay,
       acc.2.1 + negLog ((fg.nodeD n).reliability.pymax ⟨1, 1000000⟩),
       acc.2.2 * (fg.nodeD n).reliability) (Fl.Pos.add h (hPos _))
    refine ⟨h1, ?_⟩
    rw [h2]
    simp only []
    rw [Fl.val_add h (hPos _)]
    simp only [specNodeRelSumDQ, List.map_cons, List.sum_cons, relTermQ]
    ring

theorem qpc_node_fold_rc (negLog : Fl → Fl) (g : Graph) (hW : g.WF) (hPos : PosFun negLog)
    (hrn : ∀ p ∈ g.nodes, (⟨1, 1000000⟩ : Fl) < p.2.reliability)
    (ns : List Nat) :
    ∀ (acc : Fl × Fl), acc.2.Pos → (∀ n ∈ ns, (g.getNode n).isSome = true) →
      (ns.foldl (qpc_node_step negLog g) acc).2.Pos ∧
      (ns.foldl (qpc_node_step negLog g) acc).2.val =
        acc.2.val + specNodeRelSumQ negLog g ns := by
  induction ns with
  | nil => intro acc h _; exact ⟨h, by simp [specNodeRelSumQ]⟩
  | cons n rest ih =>
    intro acc h hex
    have hsome : (g.getNode n).isSome = true := hex n (List.mem_cons_self _ _)
    rw [Option.isSome_iff_exists] at hsome
    obtain ⟨nd, hnd⟩ := hsome
    obtain ⟨p, hpm, hpd⟩ := Graph.getNode_mem hnd
    have hrel : (⟨1, 1000000⟩ : Fl) < nd.reliability := by
      rw [← hpd]; exact hrn p hpm
    have hdpos : nd.reliability.Pos := by
      rw [← hpd]; exact ((hW.1 p hpm).2)
    have hlt : (0 : Fl) < nd.reliability := by
      show (0 : Int) * nd.reliability.den < nd.reliability.num * 1
      change (1 : Int) * nd.reliability.den < nd.reliability.num * 1000000 at hrel
      have hd : (0 : Int) < nd.reliability.den := hdpos
      omega
    have hblt : (0 : Fl).blt nd.reliability = true := (Fl.blt_iff _ _).mpr hlt
    have hstep : qpc_node_step negLog g acc n =
        (acc.1 + nd.proc_delay, acc.2 + negLog nd.reliability) := by
      unfold qpc_node_step
      rw [hnd]
      simp [hblt]
    have hDn : g.nodeD n = nd := by
      unfold Graph.nodeD
      rw [hnd]
      rfl
    simp only [List.foldl_cons, hstep]
    obtain ⟨h1, h2⟩ := ih (acc.1 + nd.proc_delay, acc.2 + negLog nd.reliability)
      (Fl.Pos.add h (hPos _)) (fun m hm => hex m (List.mem_cons_of_mem _ hm))
    refine ⟨h1, ?_⟩
    rw [h2]
    simp only []
    rw [Fl.val_add h (hPos _)]
    simp only [specNodeRelSumQ, List.map_cons, List.sum_cons, hDn,
      relTermQ_eq negLog (Fl.le_of_lt hrel)]
    ring

theorem qpc_end_fold_rc (negLog : Fl → Fl) (g : Graph) (hW : g.WF) (hPos : PosFun negLog)
    (hrn : ∀ p ∈ g.nodes, (⟨1, 1000000⟩ : Fl) < p.2.reliability)
    (ns : List Nat) :
    ∀ (acc : Fl), acc.Pos → (∀ n ∈ ns, (g.getNode n).isSome = true) →
      (ns.foldl (qpc_end_step negLog g) acc).Pos ∧
      (ns.foldl (qpc_end_step negLog g) acc).val =
        acc.val + specNodeRelSumQ negLog g ns := by
  induction ns with
  | nil => intro acc h _; exact ⟨h, by simp [specNodeRelSumQ]⟩
  | cons n rest ih =>
    intro acc h hex
    have hsome : (g.getNode n).isSome = true := hex n (List.mem_cons_self _ _)
    rw [Option.isSome_iff_exists] at hsome
    obtain ⟨nd, hnd⟩ := hsome
    obtain ⟨p, hpm, hpd⟩ := Graph.getNode_mem hnd
    have hrel : (⟨1, 1000000⟩ : Fl) < nd.reliability := by
      rw [← hpd]; exact hrn p hpm
    have hdpos : nd.reliability.Pos := by
      rw [← hpd]; exact ((hW.1 p hpm).2)
    have hlt : (0 : Fl) < nd.reliability := by
      show (0 : Int) * nd.reliability.den < nd.reliability.num * 1
      change (1 : Int) * nd.reliability.den < nd.reliability.num * 1000000 at hrel
      have hd : (0 : Int) < nd.reliability.den := hdpos
      omega
    have hblt : (0 : Fl).blt nd.reliability = true := (Fl.blt_iff _ _).mpr hlt
    have hstep : qpc_end_step negLog g acc n = acc + negLog nd.reliability := by
      unfold qpc_end_step
      rw [hnd]
      simp [hblt]
    have hDn : g.nodeD n = nd := by
      unfold Graph.nodeD
      rw [hnd]
      rfl
    simp only [List.foldl_cons, hstep]
    obtain ⟨h1, h2⟩ := ih _ (Fl.Pos.add h (hPos _))
      (fun m hm => hex m (List.mem_cons_of_mem _ hm))
    refine ⟨h1, ?_⟩
    rw [h2]
    rw [Fl.val_add h (hPos _)]
    simp only [specNodeRelSumQ, List.map_cons, List.sum_cons, hDn,
      relTermQ_eq negLog (Fl.le_of_lt hrel)]
    ring

/-- Claim C4 (counterexample): the PSO and SA cost models do *not* sum node
reliability over all path nodes: on a two-node graph whose source node has
reliability 1/2 (with `-ln` instantiated to a probe function), the spec's
sum over all edges and all nodes is 5/2, but PSO computes 2 (it never adds
the source node's term) and SA computes 1 (it adds interior-node terms
only). -/
theorem c4_counterexample :
    (pso_reliability_cost negLogId G4 [0, 1]).map Fl.val = some 2 ∧
    ((sa_calculate_total_cost negLogId (sa_filter_graph G4.toDiGraph 100) saW100
        [0, 1]).map (fun q => q.2.reliability_cost.val)) = some 1 ∧
    specEdgeRelSumQ negLogId G4 [0, 1] + specNodeRelSumQ negLogId G4 [0, 1] = 5 / 2 ∧
    (2 : ℚ) ≠ 5 / 2 ∧ (1 : ℚ) ≠ 5 / 2 := by
  refine ⟨?_, ?_, ?_, by norm_num, by norm_num⟩
  · rw [show pso_reliability_cost negLogId G4 [0, 1] = some ⟨2, 1⟩ from by decide]
    simp [Fl.val]
  · rw [show sa_calculate_total_cost negLogId (sa_filter_graph G4.toDiGraph 100) saW100
        [0, 1] = some ((sa_calculate_total_cost negLogId
          (sa_filter_graph G4.toDiGraph 100) saW100 [0, 1]).getD (0, ⟨0, 0, 0, 0, 0, 0⟩))
        from by decide]
    have : ((sa_calculate_total_cost negLogId (sa_filter_graph G4.toDiGraph 100) saW100
        [0, 1]).getD (0, ⟨0, 0, 0, 0, 0, 0⟩)).2.reliability_cost = ⟨1, 1⟩ := by decide
    rw [Option.map_some', this]
    simp [Fl.val]
  · have hf : G4.findEdge 0 1 = some e1000 := by decide
    have h0 : G4.nodeD 0 = ndHalf := by decide
    have h1 : G4.nodeD 1 = nd1 := by decide
    have hp1 : relTermQ negLogId (1 : Fl) = 1 := by
      rw [show relTermQ negLogId (1 : Fl) = ((1 : Fl).pymax ⟨1, 1000000⟩).val from rfl,
        show (1 : Fl).pymax ⟨1, 1000000⟩ = 1 from by decide, Fl.val_one]
    have hp2 : relTermQ negLogId (⟨1, 2⟩ : Fl) = 1 / 2 := by
      rw [show relTermQ negLogId (⟨1, 2⟩ : Fl) = ((⟨1, 2⟩ : Fl).pymax ⟨1, 1000000⟩).val
          from rfl,
        show (⟨1, 2⟩ : Fl).pymax ⟨1, 1000000⟩ = ⟨1, 2⟩ from by decide]
      show ((1 : Int) : ℚ) / ((2 : Int) : ℚ) = 1 / 2
      norm_num
    simp only [specEdgeRelSumQ, specNodeRelSumQ, pairsOf, List.map_cons, List.map_nil,
      List.sum_cons, List.sum_nil, hf, h0, h1]
    rw [show e1000.reliability = (1 : Fl) from rfl, show ndHalf.reliability = (⟨1, 2⟩ : Fl)
      from rfl, show nd1.reliability = (1 : Fl) from rfl, hp1, hp2]
    norm_num

/-- Claim C4 (amended): which reliability terms each cost model actually
sums.  The GA metrics sum `-ln(reliability)` over all path edges and over
*all* path nodes (as the spec claims).  PSO sums over all edges but omits
the source node (only the second endpoint of each hop contributes).  SA
sums over all edges but only *interior* nodes.  The Q-learning cost folds
add the node term for every interior node and for both endpoints, so
Q-learning also matches the spec's node set. -/
theorem c4_amended (negLog : Fl → Fl) (g : Graph) (fg : DiGraph) (w : SaWeights)
    (p : List Nat) (hW : g.WF) (hPos : PosFun negLog)
    (hre : ∀ e ∈ g.edges, (⟨1, 1000000⟩ : Fl) < e.2.2.reliability)
    (hrn : ∀ q ∈ g.nodes, (⟨1, 1000000⟩ : Fl) < q.2.reliability)
    (hce : ∀ e ∈ fg.dedges, e.2.2.edge_rel_cost = none)
    (hcn : ∀ q ∈ fg.nodes, q.2.node_rel_cost = none)
    (hconn : g.pathConnected p = true)
    (hconnD : ∀ uv ∈ pairsOf p, fg.hasEdge uv.1 uv.2 = true)
    (hlen : 2 ≤ p.length) :
    (calculate_path_attributes negLog g p).reliability_cost.val =
      specEdgeRelSumQ negLog g p + specNodeRelSumQ negLog g p ∧
    (pso_reliability_cost negLog g p).map Fl.val =
      some (specEdgeRelSumQ negLog g p + specNodeRelSumQ negLog g p.tail) ∧
    ((sa_calculate_total_cost negLog fg w p).map (fun q => q.2.reliability_cost.val)) =
      some (specEdgeRelSumDQ negLog fg p + specNodeRelSumDQ negLog fg (interiorOf p)) ∧
    (∀ (ns : List Nat) (acc : Fl × Fl), acc.2.Pos →
      (∀ n ∈ ns, (g.getNode n).isSome = true) →
      (ns.foldl (qpc_node_step negLog g) acc).2.val =
        acc.2.val + specNodeRelSumQ negLog g ns) ∧
    (∀ (ns : List Nat) (acc : Fl), acc.Pos →
      (∀ n ∈ ns, (g.getNode n).isSome = true) →
      (ns.foldl (qpc_end_step negLog g) acc).val =
        acc.val + specNodeRelSumQ negLog g ns) := by
  refine ⟨?_, ?_, ?_, ?_, ?_⟩
  · have heacc := cpa_edge_fold_rc negLog g hPos hre (pairsOf p) ⟨0, 0, 0⟩ Fl.zero_pos
    have hracc := cpa_rel_fold_rc negLog g hPos hrn p
      (((pairsOf p).foldl (cpa_edge_step negLog g) ⟨0, 0, 0⟩).reliability_cost) heacc.1
    show (p.foldl (cpa_rel_step negLog g)
        (((pairsOf p).foldl (cpa_edge_step negLog g) ⟨0, 0, 0⟩).reliability_cost)).val = _
    rw [hracc.2, heacc.2]
    show (0 : Fl).val + specEdgeRelSumQ negLog g p + specNodeRelSumQ negLog g p = _
    rw [Fl.val_zero]
    ring
  · have hconn' : ∀ uv ∈ pairsOf p, g.hasEdge uv.1 uv.2 = true := by
      simpa [Graph.pathConnected, List.all_eq_true] using hconn
    obtain ⟨st', hrun, hp, hv⟩ := pso_fitness_edges_rc_val negLog g hPos (pairsOf p) 0
      (0, 0, 0, 1) Fl.zero_pos hconn'
    simp only [pso_reliability_cost, hrun, Option.map_some']
    rw [hv, pairsOf_map_snd]
    refine congrArg some ?_
    show (0 : Fl).val + (specEdgeRelSumQ negLog g p + specNodeRelSumQ negLog g p.tail) = _
    rw [Fl.val_zero]
    ring
  · have hnlt : ¬ (p.length < 2) := Nat.not_lt.mpr hlen
    obtain ⟨st', hrun, hp, hv⟩ := sa_edge_fold_rc negLog fg hPos hce (pairsOf p)
      (0, 0, 0, 1) Fl.zero_pos hconnD
    obtain ⟨td0, rc0, res0, rp0⟩ := st'
    unfold sa_calculate_total_cost
    rw [decide_eq_false hnlt]
    simp only [cond_false, hrun]
    have hnacc := sa_node_fold_rc negLog fg hPos hcn (interiorOf p) (td0, rc0, rp0) hp
    simp only [Option.map_some']
    refine congrArg some ?_
    show ((interiorOf p).foldl (sa_node_step negLog fg) (td0, rc0, rp0)).2.1.val = _
    rw [hnacc.2]
    show rc0.val + _ = _
    rw [hv]
    show (0 : Fl).val + specEdgeRelSumDQ negLog fg p + specNodeRelSumDQ negLog fg _ = _
    rw [Fl.val_zero]
    ring
  · intro ns acc hacc hex
    exact (qpc_node_fold_rc negLog g hW hPos hrn ns acc hacc hex).2
  · intro ns acc hacc hex
    exact (qpc_end_fold_rc negLog g hW hPos hrn ns acc hacc hex).2

/-- Witness for C4 (amended) on a concrete two-node graph and its filtered
digraph. -/
theorem c4_amended_witness :
    (calculate_path_attributes negLogStub G2ok [0, 1]).reliability_cost.val =
      specEdgeRelSumQ negLogStub G2ok [0, 1] + specNodeRelSumQ negLogStub G2ok [0, 1] :=
  (c4_amended negLogStub G2ok (sa_filter_graph G2ok.toDiGraph 100) saW100 [0, 1]
    (by decide) (fun _ => Fl.zero_pos) (by decide) (by decide) (by decide) (by decide)
    (by decide) (by decide) (by decide)).1

theorem extractMinFr_mem :
    ∀ {l : List (Fl × List Nat)} {m : Fl × List Nat} {rest : List (Fl × List Nat)},
      extractMinFr l = some (m, rest) → m ∈ l ∧ ∀ x ∈ rest, x ∈ l := by
  intro l
  induction l with
  | nil => intro m rest h; cases h
  | cons a as ih =>
    intro m rest h
    simp only [extractMinFr] at h
    cases hr : extractMinFr as with
    | none =>
      rw [hr] at h
      cases h
      exact ⟨List.mem_cons_self _ _, fun x hx => absurd hx (List.not_mem_nil x)⟩
    | some p =>
      rw [hr] at h
      obtain ⟨m0, rest0⟩ := p
      obtain ⟨hm0, hr0⟩ := ih hr
      simp only [] at h
      cases hb : m0.1.blt a.1 with
      | true =>
        rw [hb] at h
        simp only [cond_true] at h
        cases h
        exact ⟨List.mem_cons_of_mem _ hm0,
          fun x hx => by
            rcases List.mem_cons.mp hx with rfl | hx'
            · exact List.mem_cons_self _ _
            · exact List.mem_cons_of_mem _ (hr0 x hx')⟩
      | false =>
        rw [hb] at h
        simp only [cond_false] at h
        cases h
        exact ⟨List.mem_cons_self _ _, fun x hx => List.mem_cons_of_mem _ hx⟩

theorem chain_iff_pairsOf {R : Nat → Nat → Prop} :
    ∀ (p : List Nat), List.Chain' R p ↔ ∀ uv ∈ pairsOf p, R uv.1 uv.2
  | [] => by simp [pairsOf]
  | [a] => by simp [pairsOf]
  | a :: b :: rest => by
    rw [List.chain'_cons, chain_iff_pairsOf (b :: rest)]
    simp only [pairsOf, List.mem_cons]
    constructor
    · rintro ⟨hab, hrest⟩ uv huv
      rcases huv with rfl | huv
      · exact hab
      · exact hrest uv huv
    · intro h
      exact ⟨h (a, b) (Or.inl rfl), fun uv huv => h uv (Or.inr huv)⟩

theorem pathConnected_iff_chain (g : Graph) (p : List Nat) :
    g.pathConnected p = true ↔ List.Chain' (fun a b => g.hasEdge a b = true) p := by
  rw [Graph.pathConnected, List.all_eq_true, chain_iff_pairsOf]

theorem List.getD_mem_of_nonempty {l : List Nat} (h : l ≠ []) (i : Nat) (d : Nat)
    (hi : i < l.length) : l.getD i d ∈ l := by
  rw [List.getD_eq_getElem?_getD, List.getElem?_eq_getElem hi]
  exact List.getElem_mem _

theorem filterMap_succ_hasEdge (tempG : Graph) (wOf : Nat × Nat × EdgeData → Fl)
    {u v : Nat} {w : Fl}
    (h : (v, w) ∈ tempG.edges.filterMap (fun e =>
      bif e.1 == u then some (e.2.1, wOf e)
      else bif e.2.1 == u then some (e.1, wOf e) else none)) :
    tempG.hasEdge u v = true := by
  rw [List.mem_filterMap] at h
  obtain ⟨e, he, hfe⟩ := h
  have hfind : ∃ x ∈ tempG.edges,
      ((x.1 == u && x.2.1 == v) || (x.1 == v && x.2.1 == u)) = true := by
    refine ⟨e, he, ?_⟩
    cases h1 : e.1 == u with
    | true =>
      rw [h1] at hfe
      simp only [cond_true, Option.some.injEq, Prod.mk.injEq] at hfe
      simp [h1, hfe.1]
    | false =>
      rw [h1] at hfe
      simp only [cond_false] at hfe
      cases h2 : e.2.1 == u with
      | true =>
        rw [h2] at hfe
        simp only [cond_true, Option.some.injEq, Prod.mk.injEq] at hfe
        simp [h2, hfe.1]
      | false => rw [h2] at hfe; simp at hfe
  rw [Graph.hasEdge, Graph.findEdge, Option.isSome_map']
  rw [List.find?_isSome]
  exact hfind

theorem Graph.neighbors_hasEdge {g : Graph} {u v : Nat} (h : v ∈ g.neighbors u) :
    g.hasEdge u v = true := by
  rw [Graph.neighbors, List.mem_filterMap] at h
  obtain ⟨e, he, hfe⟩ := h
  have hfind : ∃ x ∈ g.edges,
      ((x.1 == u && x.2.1 == v) || (x.1 == v && x.2.1 == u)) = true := by
    refine ⟨e, he, ?_⟩
    cases h1 : e.1 == u with
    | true =>
      rw [h1] at hfe
      simp only [cond_true, Option.some.injEq] at hfe
      simp [h1, hfe]
    | false =>
      rw [h1] at hfe
      simp only [cond_false] at hfe
      cases h2 : e.2.1 == u with
      | true =>
        rw [h2] at hfe
        simp only [cond_true, Option.some.injEq] at hfe
        simp [h2, hfe]
      | false => rw [h2] at hfe; simp at hfe
  rw [Graph.hasEdge, Graph.findEdge, Option.isSome_map']
  rw [List.find?_isSome]
  exact hfind

theorem dijkstraLoop_sound (succw : Nat → List (Nat × Fl)) (t s : Nat) :
    ∀ (fuel : Nat) (f : List (Fl × List Nat)) (visited : List Nat) (p : List Nat),
      (∀ e ∈ f, e.2 ≠ [] ∧ e.2.Nodup ∧ (∀ x ∈ e.2.tail, x ∈ visited) ∧
        e.2.getLast? = some s ∧ List.Chain' (fun a b => SuccStep succw b a) e.2) →
      dijkstraLoop succw t fuel f visited = some p →
      p.head? = some s ∧ p.getLast? = some t ∧ p.Nodup ∧
        List.Chain' (SuccStep succw) p := by
  intro fuel
  induction fuel with
  | zero =>
    intro f visited p _ h
    simp only [dijkstraLoop] at h
    cases h
  | succ n ih =>
    intro f visited p hInv h
    cases f with
    | nil =>
      simp only [dijkstraLoop] at h
      cases h
    | cons f0 fs =>
      simp only [dijkstraLoop] at h
      cases hext : extractMinFr (f0 :: fs) with
      | none => rw [hext] at h; cases h
      | some q =>
        rw [hext] at h
        obtain ⟨entry, rest⟩ := q
        obtain ⟨ec, el⟩ := entry
        simp only [] at h
        cases el with
        | nil => cases h
        | cons cur tl =>
          simp only [] at h
          have hent := (extractMinFr_mem hext).1
          obtain ⟨-, hnd, htl, hlast, hchain⟩ := hInv _ hent
          have hrest : ∀ e ∈ rest, e.2 ≠ [] ∧ e.2.Nodup ∧ (∀ x ∈ e.2.tail, x ∈ visited) ∧
              e.2.getLast? = some s ∧ List.Chain' (fun a b => SuccStep succw b a) e.2 :=
            fun e he => hInv e ((extractMinFr_mem hext).2 e he)
          cases hvis : visited.contains cur with
          | true =>
            rw [hvis] at h
            simp only [cond_true] at h
            exact ih rest visited p hrest h
          | false =>
            rw [hvis] at h
            simp only [cond_false] at h
            cases hct : cur == t with
            | true =>
              rw [hct] at h
              simp only [cond_true] at h
              cases h
              have hcur : cur = t := by simpa using hct
              refine ⟨?_, ?_, ?_, ?_⟩
              · rw [List.head?_reverse]
                simpa using hlast
              · rw [List.getLast?_reverse]
                simp [hcur]
              · exact List.nodup_reverse.mpr hnd
              · exact List.chain'_reverse.mpr hchain
            | false =>
              rw [hct] at h
              simp only [cond_false] at h
              refine ih _ _ p ?_ h
              intro e he
              rcases List.mem_append.mp he with he | he
              · obtain ⟨h1, h2, h3, h4, h5⟩ := hrest e he
                exact ⟨h1, h2, fun x hx => List.mem_cons_of_mem _ (h3 x hx), h4, h5⟩
              · rw [List.mem_filterMap] at he
                obtain ⟨nw, hnw, hfe⟩ := he
                cases hc : (cur :: visited).contains nw.1 with
                | true => rw [hc] at hfe; cases hfe
                | false =>
                  rw [hc] at hfe
                  simp only [cond_false, Option.some.injEq] at hfe
                  subst hfe
                  have hnmem : nw.1 ∉ cur :: visited := by
                    intro hmem
                    have hco : (cur :: visited).contains nw.1 = true := by
                      simpa [List.elem_iff] using hmem
                    rw [hc] at hco
                    cases hco
                  have htl' : ∀ x ∈ cur :: tl, x ∈ cur :: visited := by
                    intro x hx
                    rcases List.mem_cons.mp hx with rfl | hx'
                    · exact List.mem_cons_self _ _
                    · exact List.mem_cons_of_mem _ (htl x hx')
                  refine ⟨by simp, ?_, ?_, ?_, ?_⟩
                  · refine List.nodup_cons.mpr ⟨?_, hnd⟩
                    intro hmem
                    exact hnmem (htl' _ hmem)
                  · intro x hx
                    exact htl' x hx
                  · simpa using hlast
                  · rw [List.chain'_cons]
                    exact ⟨⟨nw.2, hnw⟩, hchain⟩

theorem dijkstraFrom_sound (succw : Nat → List (Nat × Fl)) (fuel s t : Nat) (p : List Nat)
    (h : dijkstraFrom succw fuel s t = some p) :
    p.head? = some s ∧ p.getLast? = some t ∧ p.Nodup ∧
      List.Chain' (SuccStep succw) p := by
  refine dijkstraLoop_sound succw t s fuel [((0 : Fl), [s])] [] p ?_ h
  intro e he
  rcases List.mem_singleton.mp he with rfl
  exact ⟨by simp, by simp, by simp, by simp, by simp⟩

theorem Graph.hasEdge_mono {g1 g2 : Graph} (hsub : ∀ e ∈ g1.edges, e ∈ g2.edges)
    {u v : Nat} (h : g1.hasEdge u v = true) : g2.hasEdge u v = true := by
  rw [Graph.hasEdge, Graph.findEdge, Option.isSome_map', List.find?_isSome] at h ⊢
  obtain ⟨x, hx, hpx⟩ := h
  exact ⟨x, hsub x hx, hpx⟩

theorem pso_particle_path_sound (g tempG : Graph) (pos : List Fl) (src dst : Nat)
    (hsub : ∀ e ∈ tempG.edges, e ∈ g.edges) (p : List Nat)
    (h : pso_particle_path g tempG pos src dst = some p) :
    SimplePathFromTo g p src dst := by
  obtain ⟨h1, h2, h3, h4⟩ := dijkstraFrom_sound _ _ _ _ p h
  refine ⟨h1, h2, h3, ?_⟩
  rw [pathConnected_iff_chain]
  refine h4.imp ?_
  intro a b hab
  obtain ⟨w, hw⟩ := hab
  exact Graph.hasEdge_mono hsub (filterMap_succ_hasEdge tempG _ hw)

theorem pso_eval_particle_inv (negLog : Fl → Fl) (g tempG : Graph) (wq : Fl × Fl × Fl)
    (src dst : Nat) (hsub : ∀ e ∈ tempG.edges, e ∈ g.edges) (pt : Particle) (st : PsoBest)
    (hst : ∀ q, st.gbest_path = some q → SimplePathFromTo g q src dst) :
    ∀ q, (pso_eval_particle negLog g tempG wq src dst pt st).2.gbest_path = some q →
      SimplePathFromTo g q src dst := by
  intro q hq
  simp only [pso_eval_particle] at hq
  cases hpath : pso_particle_path g tempG pt.position src dst with
  | none => rw [hpath] at hq; exact hst q hq
  | some path =>
    rw [hpath] at hq
    simp only [] at hq
    cases hfit : pso_calculate_fitness negLog g wq path with
    | none => rw [hfit] at hq; exact hst q hq
    | some m =>
      rw [hfit] at hq
      simp only [] at hq
      cases hlt : ltOptScore m.score st.gbest_score with
      | false =>
        rw [hlt] at hq
        simp only [cond_false] at hq
        exact hst q hq
      | true =>
        rw [hlt] at hq
        simp only [cond_true] at hq
        cases hq
        exact pso_particle_path_sound g tempG pt.position src dst hsub _ hpath

theorem pso_eval_swarm_inv (negLog : Fl → Fl) (g tempG : Graph) (wq : Fl × Fl × Fl)
    (src dst : Nat) (hsub : ∀ e ∈ tempG.edges, e ∈ g.edges) :
    ∀ (swarm : List Particle) (st : PsoBest),
      (∀ q, st.gbest_path = some q → SimplePathFromTo g q src dst) →
      ∀ q, (pso_eval_swarm negLog g tempG wq src dst swarm st).2.gbest_path = some q →
        SimplePathFromTo g q src dst
  | [], _, hst, q, hq => hst q hq
  | pt :: rest, st, hst, q, hq => by
    simp only [pso_eval_swarm] at hq
    exact pso_eval_swarm_inv negLog g tempG wq src dst hsub rest _
      (pso_eval_particle_inv negLog g tempG wq src dst hsub pt st hst) q hq

theorem pso_iterations_inv (negLog : Fl → Fl) (g tempG : Graph) (wq : Fl × Fl × Fl)
    (src dst : Nat) (hsub : ∀ e ∈ tempG.edges, e ∈ g.edges) :
    ∀ (it : Nat) (swarm : List Particle) (st : PsoBest) (r : Rng),
      (∀ q, st.gbest_path = some q → SimplePathFromTo g q src dst) →
      ∀ q, (pso_iterations negLog g tempG wq src dst it swarm st r).1.gbest_path = some q →
        SimplePathFromTo g q src dst
  | 0, _, _, _, hst, q, hq => hst q hq
  | it + 1, swarm, st, r, hst, q, hq => by
    simp only [pso_iterations] at hq
    exact pso_iterations_inv negLog g tempG wq src dst hsub it _ _ _
      (pso_eval_swarm_inv negLog g tempG wq src dst hsub swarm st hst) q hq

theorem solve_demand_sound (negLog : Fl → Fl) (g : Graph) (src dst : Nat) (demand : Fl)
    (wq : Fl × Fl × Fl) (r : Rng) (p : List Nat)
    (h : (solve_demand negLog g src dst demand wq r).1.1 = some p) :
    SimplePathFromTo g p src dst := by
  simp only [solve_demand] at h
  cases hge : g.edges.isEmpty with
  | true => rw [hge] at h; cases h
  | false =>
    rw [hge] at h
    simp only [cond_false] at h
    cases hp : (⟨g.nodes, pso_available_edges g demand⟩ : Graph).hasPath src dst with
    | false => rw [hp] at h; cases h
    | true =>
      rw [hp] at h
      simp only [Bool.not_true, cond_false] at h
      have hsub : ∀ e ∈ (⟨g.nodes, pso_available_edges g demand⟩ : Graph).edges,
          e ∈ g.edges := fun e he => (List.mem_filter.mp he).1
      exact pso_iterations_inv negLog g _ wq src dst hsub 25 _ _ _
        (fun q hq => by cases hq) p h

theorem not_mem_of_contains_false {l : List Nat} {a : Nat} (h : l.contains a = false) :
    a ∉ l := by
  intro hm
  have hco : l.contains a = true := by simpa [List.elem_iff] using hm
  rw [h] at hco
  cases hco

theorem mem_of_contains_true {l : List Nat} {a : Nat} (h : l.contains a = true) :
    a ∈ l := by
  simpa [List.elem_iff] using h

theorem choose_action_sound (g : Graph) (qt : List ((Nat × Nat) × Fl))
    (state destination : Nat) (visited : List Nat) (eps : Fl) (r : Rng) (act : Nat)
    (r' : Rng) (h : choose_action g qt state destination visited eps r = (some act, r')) :
    g.hasEdge state act = true ∧ act ∉ visited := by
  have hconc : act ∈ (g.neighbors state).filter (fun n => !(visited.contains n)) := by
    simp only [choose_action] at h
    cases hie : ((g.neighbors state).filter (fun n => !(visited.contains n))).isEmpty with
    | true => rw [hie] at h; simp at h
    | false =>
      rw [hie] at h
      simp only [cond_false] at h
      have hne : (g.neighbors state).filter (fun n => !(visited.contains n)) ≠ [] := by
        simpa [List.isEmpty_eq_false] using hie
      have hlen : 0 < ((g.neighbors state).filter (fun n => !(visited.contains n))).length :=
        List.length_pos.mpr hne
      cases hcd : ((g.neighbors state).filter (fun n => !(visited.contains n))).contains
          destination with
      | true =>
        rw [hcd] at h
        simp only [cond_true] at h
        cases hblt : ((eps / 2).blt (r.randFloat).1) with
        | true =>
          rw [hblt] at h
          simp only [cond_true] at h
          obtain ⟨h1, -⟩ := Prod.mk.injEq .. ▸ h
          cases h1
          exact mem_of_contains_true hcd
        | false =>
          rw [hblt] at h
          simp only [cond_false] at h
          cases hblt2 : ((r.randFloat).2.randFloat).1.blt eps with
          | true =>
            rw [hblt2] at h
            simp only [cond_true, Rng.choice] at h
            obtain ⟨h1, -⟩ := Prod.mk.injEq .. ▸ h
            cases h1
            exact List.getD_mem_of_nonempty hne _ _ (Nat.mod_lt _ hlen)
          | false =>
            rw [hblt2] at h
            simp only [cond_false] at h
            obtain ⟨h1, -⟩ := Prod.mk.injEq .. ▸ h
            cases h1
            exact pyMaxBy_mem _ _ _ hne
      | false =>
        rw [hcd] at h
        simp only [cond_false] at h
        cases hblt2 : (r.randFloat).1.blt eps with
        | true =>
          rw [hblt2] at h
          simp only [cond_true, Rng.choice] at h
          obtain ⟨h1, -⟩ := Prod.mk.injEq .. ▸ h
          cases h1
          exact List.getD_mem_of_nonempty hne _ _ (Nat.mod_lt _ hlen)
        | false =>
          rw [hblt2] at h
          simp only [cond_false] at h
          obtain ⟨h1, -⟩ := Prod.mk.injEq .. ▸ h
          cases h1
          exact pyMaxBy_mem _ _ _ hne
  obtain ⟨hnb, hnv⟩ := List.mem_filter.mp hconc
  refine ⟨Graph.neighbors_hasEdge hnb, ?_⟩
  apply not_mem_of_contains_false
  simpa using hnv

theorem train_episode_loop_sound (negLog : Fl → Fl) (g : Graph)
    (source destination : Nat) (wd wr wres bw alpha gamma eps : Fl) :
    ∀ (fuel : Nat) (cur : Nat) (path visited : List Nat)
      (qt : List ((Nat × Nat) × Fl)) (r : Rng),
      path.getLast? = some cur → path.head? = some source → path.Nodup →
      List.Chain' (fun a b => g.hasEdge a b = true) path → (∀ x ∈ path, x ∈ visited) →
      (train_episode_loop negLog g source destination wd wr wres bw alpha gamma eps
        fuel cur path visited qt r).2.1 = true →
      SimplePathFromTo g (train_episode_loop negLog g source destination wd wr wres bw
        alpha gamma eps fuel cur path visited qt r).1 source destination := by
  intro fuel
  induction fuel with
  | zero =>
    intro cur path visited qt r _ _ _ _ _ hreach
    simp [train_episode_loop] at hreach
  | succ n ih =>
    intro cur path visited qt r hlast hhead hnd hchain hsubs hreach
    simp only [train_episode_loop] at hreach ⊢
    cases hd : cur == destination with
    | true =>
      simp only [cond_true]
      have hcd : cur = destination := by simpa using hd
      refine ⟨hhead, by rw [hlast, hcd], hnd, (pathConnected_iff_chain g path).mpr hchain⟩
    | false =>
      rw [hd] at hreach
      simp only [cond_false] at hreach ⊢
      cases hca : choose_action g qt cur destination visited eps r with
      | mk o r1 =>
        rw [hca] at hreach
        cases o with
        | none =>
          simp at hreach
        | some act =>
          simp only [] at hreach ⊢
          obtain ⟨hedge, hnv⟩ := choose_action_sound g qt cur destination visited eps r
            act r1 hca
          have hpne : path ≠ [] := by
            intro hnil
            rw [hnil] at hhead
            cases hhead
          have hnp : act ∉ path := fun hm => hnv (hsubs act hm)
          refine ih act (path ++ [act]) (act :: visited) _ _ ?_ ?_ ?_ ?_ ?_ hreach
          · simp [List.getLast?_concat]
          · rw [List.head?_append, hhead]
            rfl
          · simp [List.nodup_append, hnd, hnp]
          · rw [List.chain'_append]
            refine ⟨hchain, List.chain'_singleton _, ?_⟩
            intro x hx y hy
            rw [hlast] at hx
            cases hx
            cases hy
            exact hedge
          · intro x hx
            rcases List.mem_append.mp hx with hx | hx
            · exact List.mem_cons_of_mem _ (hsubs x hx)
            · rcases List.mem_singleton.mp hx with rfl
              exact List.mem_cons_self _ _

theorem train_episode_sound (negLog : Fl → Fl) (g : Graph) (source destination : Nat)
    (wd wr wres bw alpha gamma eps : Fl) (qt : List ((Nat × Nat) × Fl)) (r : Rng)
    (h : (train_episode negLog g source destination wd wr wres bw alpha gamma eps
      qt r).2.2.1 = true) :
    SimplePathFromTo g (train_episode negLog g source destination wd wr wres bw alpha
      gamma eps qt r).1 source destination := by
  exact train_episode_loop_sound negLog g source destination wd wr wres bw alpha gamma eps
    100 source [source] [source] qt r (by simp) (by simp) (by simp) (by simp)
    (by simp) h

theorem qlearning_episode_loop_sound (negLog : Fl → Fl) (g : Graph)
    (source target : Nat) (wd wr wres bw alpha gamma e1 e2 ed : Fl) :
    ∀ (rem episode : Nat) (qt : List ((Nat × Nat) × Fl)) (best_path : List Nat)
      (best_reward : Option Fl) (r : Rng),
      (best_path = [] ∨ SimplePathFromTo g best_path source target) →
      ((qlearning_episode_loop negLog g source target wd wr wres bw alpha gamma e1 e2 ed
          rem episode qt best_path best_reward r).1 = [] ∨
        SimplePathFromTo g (qlearning_episode_loop negLog g source target wd wr wres bw
          alpha gamma e1 e2 ed rem episode qt best_path best_reward r).1 source target) := by
  intro rem
  induction rem with
  | zero => intro episode qt best_path best_reward r hb; exact hb
  | succ n ih =>
    intro episode qt best_path best_reward r hb
    simp only [qlearning_episode_loop]
    cases hupd : ((train_episode negLog g source target wd wr wres bw alpha gamma
        (e2.pymax (e1 - Fl.ofNat episode * ed)) qt r).2.2.1 &&
        gtOptScore (train_episode negLog g source target wd wr wres bw alpha gamma
          (e2.pymax (e1 - Fl.ofNat episode * ed)) qt r).2.1 best_reward) with
    | true =>
      simp only [cond_true]
      rw [Bool.and_eq_true] at hupd
      refine ih _ _ _ _ _ (Or.inr ?_)
      exact train_episode_sound negLog g source target wd wr wres bw alpha gamma _ qt r
        hupd.1
    | false =>
      simp only [cond_false]
      exact ih _ _ _ _ _ hb

theorem qlearning_calculate_path_sound (negLog expfn : Fl → Fl) (g : Graph)
    (source target : Nat) (wd wr wres bw alpha gamma e1 e2 : Fl) (nEp : Nat) (r : Rng)
    (res : QResult)
    (h : (qlearning_calculate_path negLog expfn g source target wd wr wres bw nEp alpha
      gamma e1 e2 r).1 = some res) :
    SimplePathFromTo g res.path source target := by
  simp only [qlearning_calculate_path] at h
  cases hnod : (!(g.nodeIds.contains source) || !(g.nodeIds.contains target)) with
  | true => rw [hnod] at h; cases h
  | false =>
    rw [hnod] at h
    simp only [cond_false] at h
    cases hie : (qlearning_episode_loop negLog g source target wd wr wres bw alpha gamma
        e1 e2 ((e1 - e2) / Fl.ofNat nEp) nEp 0 [] [] none r).1.isEmpty with
    | true => rw [hie] at h; cases h
    | false =>
      rw [hie] at h
      simp only [cond_false] at h
      cases h
      rcases qlearning_episode_loop_sound negLog g source target wd wr wres bw alpha gamma
          e1 e2 ((e1 - e2) / Fl.ofNat nEp) nEp 0 [] [] none r (Or.inl rfl) with hnil | hok
      · rw [hnil] at hie
        cases hie
      · exact hok

/-- Claim C1 (counterexample): not every returned path is a simple path.
The simulated-annealing solver can return a path that repeats a node: on
a seven-node graph its reversal move re-routes a segment ending at the
target through the target's other side, producing `[0,4,5,6,3,2,3]`
(node 3 twice), which the annealer accepts as an improvement and returns
as its best path (run shown with `initial_temp = 2`, `markov_length = 1`
to keep the trace short; the move generation is identical at every
parameterisation).  The genetic crossover likewise splices parents into a
node-repeating child `[0,1,2,1,3]`. -/
theorem c1_counterexample :
    ((sa_run negLogStub expOneStub G7.toDiGraph 0 3 100 saW100
        ⟨2, 1, (0.85 : Fl), (0.80 : Fl), 15, 1, 10, 50, false, 3⟩ oracleC1).1.map
      (fun st => st.best_path)) = some [0, 4, 5, 6, 3, 2, 3] ∧
    ¬ ([0, 4, 5, 6, 3, 2, 3] : List Nat).Nodup ∧
    (caprazlama negLogStub G7 gaW100 [0, 1, 2, 3] [0, 2, 1, 3] oracle1).1 =
      [0, 1, 2, 1, 3] ∧
    ¬ ([0, 1, 2, 1, 3] : List Nat).Nodup :=
  ⟨by decide, by decide, by decide, by decide⟩

/-- Claim C1 (amended): the PSO and Q-learning solvers *do* satisfy the
simple-path invariant: every path they return starts at the source, ends
at the target, repeats no node, and walks actual edges of the search
graph (PSO derives paths from Dijkstra runs, Q-learning from
visited-blocked walks; the SA and GA solvers are the exceptions — see the
counterexample). -/
theorem c1_amended (negLog expfn : Fl → Fl) (g : Graph) (src dst : Nat)
    (demand wd wr wres bw alpha gamma e1 e2 : Fl) (wq : Fl × Fl × Fl) (nEp : Nat)
    (r r2 : Rng) :
    (∀ p, (solve_demand negLog g src dst demand wq r).1.1 = some p →
      SimplePathFromTo g p src dst) ∧
    (∀ res, (qlearning_calculate_path negLog expfn g src dst wd wr wres bw nEp alpha
        gamma e1 e2 r2).1 = some res → SimplePathFromTo g res.path src dst) :=
  ⟨fun p hp => solve_demand_sound negLog g src dst demand wq r p hp,
   fun res hres => qlearning_calculate_path_sound negLog expfn g src dst wd wr wres bw
     alpha gamma e1 e2 nEp r2 res hres⟩

set_option maxHeartbeats 4000000 in
/-- Witness for C1 (amended): a concrete PSO run on the triangle graph and
a concrete Q-learning run on the two-node graph both return the simple
path `[0, 1]`. -/
theorem c1_amended_witness :
    SimplePathFromTo G3 [0, 1] 0 1 ∧
    SimplePathFromTo G2ok ((qlearning_calculate_path negLogStub expOneStub G2ok 0 1 1 0 0
        100 8 (0.1 : Fl) (0.9 : Fl) (0.9 : Fl) (0.05 : Fl) oracle500).1.getD
        ⟨[], 0, 0, 0, false⟩).path 0 1 :=
  ⟨(c1_amended negLogStub expOneStub G3 0 1 100 1 0 0 100 (0.1 : Fl) (0.9 : Fl)
      (0.9 : Fl) (0.05 : Fl) (1, 0, 0) 8 oracle0 oracle500).1 [0, 1] (by decide),
   (c1_amended negLogStub expOneStub G2ok 0 1 100 1 0 0 100 (0.1 : Fl) (0.9 : Fl)
      (0.9 : Fl) (0.05 : Fl) (1, 0, 0) 8 oracle0 oracle500).2 _ (by decide)⟩
